import Mathlib

/-!
Verification development for the worktree-env-sync tool.

This file gives a shallow embedding, in Lean, of the env-file
merge/interpolation engine of the tool: the env-line parser, the
validators, the template interpolator, the serializer, the generator and
the link-mapper, together with theorems about their behaviour.

Conventions of the embedding:
* JavaScript objects / `Map`s carrying string keys are embedded as
  association lists (`List (String × String)`), with `setEntry` giving the
  JavaScript insert-or-overwrite-in-place semantics and `lookupEnv` the
  key lookup.
* Exceptions are embedded as `Except String`: a thrown `Error(msg)`
  becomes `.error msg`, and a function that throws returns no partial
  results, exactly as in the JavaScript source.
* Console logging is embedded by returning the logged lines.
-/

namespace EnvSync

/-- Environment mapping: ordered key-to-value entries, the embedding of a
JavaScript object (or `Map`) with string keys and values. -/
abbrev EnvMap := List (String × String)

/-- Key lookup in an association list, embedding JavaScript property /
`Map.get` access (keys are unique in maps built by the parser; the first
match is returned). -/
def lookupEnv : EnvMap → String → Option String
  | [], _ => none
  | (k, v) :: rest, key => if k = key then some v else lookupEnv rest key

/-- Keys of a mapping, embedding `Object.keys`. -/
def envKeys (m : EnvMap) : List String :=
  m.map Prod.fst

/-- Insert-or-overwrite of one entry, keeping the position of an existing
key, as JavaScript object assignment and `Map.set` do. -/
def setEntry {α : Type} : List (String × α) → String → α → List (String × α)
  | [], k, v => [(k, v)]
  | (k₁, v₁) :: rest, k, v =>
    if k₁ = k then (k₁, v) :: rest else (k₁, v₁) :: setEntry rest k v

/-- Word characters of the `\w` regex class: ASCII letters, digits and
underscore. -/
def isWordChar (c : Char) : Bool :=
  c.isAlphanum || c = '_'

/-- State of the scanner for `$\x7bIDENTIFIER\x7d` tokens: scanning
normally, just after a dollar sign, or inside a candidate token with the
word characters read so far (reversed). -/
inductive ScanState : Type
  | normal : ScanState
  | dollar : ScanState
  | brace : List Char → ScanState

/-- Scanner for the token references of the template, embedding the
global regex match over the raw text used by `processTemplate`.  Mirrors
the JavaScript regex engine: on a failed candidate the scan resumes one
character after the dollar sign (no character between the dollar sign and
the failure point can start a token, so resuming at the failure point is
equivalent). -/
def scanAux : ScanState → List Char → List String
  | _, [] => []
  | ScanState.normal, c :: rest =>
    if c = '$' then scanAux ScanState.dollar rest else scanAux ScanState.normal rest
  | ScanState.dollar, c :: rest =>
    if c = '{' then scanAux (ScanState.brace []) rest
    else if c = '$' then scanAux ScanState.dollar rest
    else scanAux ScanState.normal rest
  | ScanState.brace w, c :: rest =>
    if isWordChar c then scanAux (ScanState.brace (c :: w)) rest
    else if c = '}' && !w.isEmpty then String.mk w.reverse :: scanAux ScanState.normal rest
    else if c = '$' then scanAux ScanState.dollar rest
    else scanAux ScanState.normal rest

/-- All identifiers referenced as `$\x7bNAME\x7d` in a text, in order of
occurrence (with repetitions). -/
def tokensOf (s : String) : List String :=
  scanAux ScanState.normal s.data

/-- Modelled from the spec: the interpolation algorithm of the template
interpolator (the expansion performed by the external `dotenvx` library,
which is not part of this repository's sources).  The raw text is scanned
for `$\x7bIDENTIFIER\x7d` tokens and each token is replaced by the value
of the identifier in the active mapping, by literal, non-recursive string
replacement; an unresolved identifier expands to the empty string (the
callers check for missing identifiers beforehand).  Unmatched candidate
text is emitted verbatim. -/
def interpAux (env : EnvMap) : ScanState → List Char → List Char
  | ScanState.normal, [] => []
  | ScanState.dollar, [] => ['$']
  | ScanState.brace w, [] => '$' :: '{' :: w.reverse
  | ScanState.normal, c :: rest =>
    if c = '$' then interpAux env ScanState.dollar rest
    else c :: interpAux env ScanState.normal rest
  | ScanState.dollar, c :: rest =>
    if c = '{' then interpAux env (ScanState.brace []) rest
    else if c = '$' then '$' :: interpAux env ScanState.dollar rest
    else '$' :: c :: interpAux env ScanState.normal rest
  | ScanState.brace w, c :: rest =>
    if isWordChar c then interpAux env (ScanState.brace (c :: w)) rest
    else if c = '}' && !w.isEmpty then
      ((lookupEnv env (String.mk w.reverse)).getD "").data ++ interpAux env ScanState.normal rest
    else if c = '$' then ('$' :: '{' :: w.reverse) ++ interpAux env ScanState.dollar rest
    else ('$' :: '{' :: w.reverse) ++ (c :: interpAux env ScanState.normal rest)

/-- Interpolation of a whole text against a mapping (see `interpAux`). -/
def interpolate (s : String) (env : EnvMap) : String :=
  String.mk (interpAux env ScanState.normal s.data)

/-- Split a character list at newline characters, keeping empty lines. -/
def splitLines : List Char → List (List Char)
  | [] => [[]]
  | c :: rest =>
    if c = '\n' then [] :: splitLines rest
    else
      match splitLines rest with
      | [] => [[c]]
      | a :: as => (c :: a) :: as

/-- Leading- and trailing-whitespace trim of a character list. -/
def trimChars (l : List Char) : List Char :=
  ((l.dropWhile Char.isWhitespace).reverse.dropWhile Char.isWhitespace).reverse

/-- Split a character list at its first `=`, returning the parts before
and after it, or `none` when there is no `=`. -/
def splitFirstEq : List Char → Option (List Char × List Char)
  | [] => none
  | c :: rest =>
    if c = '=' then some ([], rest)
    else
      match splitFirstEq rest with
      | none => none
      | some (a, b) => some (c :: a, b)

/-- Modelled from the spec: one line of the env-line parser (the parsing
performed by the external `dotenvx` library, which is not part of this
repository's sources).  A line is ignored if, after trimming whitespace,
it is empty or starts with `#`; otherwise it is split at the first `=`,
everything before (trimmed) is the key and everything after (not trimmed)
is the raw value; lines without `=` and lines with an empty key are
ignored.  No escaping or quote-stripping is applied at this stage. -/
def parseLine (line : List Char) : Option (String × String) :=
  let t := trimChars line
  if t.isEmpty then none
  else if t.head? = some '#' then none
  else
    match splitFirstEq line with
    | none => none
    | some (before, after) =>
      let key := trimChars before
      if key.isEmpty then none
      else some (String.mk key, String.mk after)

/-- Modelled from the spec: the env-line parser over a whole text.  Later
duplicate keys overwrite earlier ones (last-write-wins), with the entry
keeping its first position, as JavaScript object assignment does. -/
def parseEnv (content : String) : EnvMap :=
  ((splitLines content.data).filterMap parseLine).foldl
    (fun m kv => setEntry m kv.1 kv.2) []

/-- Modelled from the spec: `dotenvx.parse(content, { processEnv })` of
the external `dotenvx` library.  Interpolates `$\x7bNAME\x7d` references
against the supplied `processEnv` mapping and parses the result line by
line.  When the caller supplies no `processEnv` option the library
defaults to the live environment of the host process (`hostEnv` here);
every call in the synchronizer passes an explicit mapping. -/
def dotenvxParse (hostEnv : EnvMap) (content : String) (processEnv : Option EnvMap) :
    EnvMap :=
  parseEnv (interpolate content (processEnv.getD hostEnv))

/-- Comparison of natural numbers as an `Ordering`. -/
def natCmp (x y : Nat) : Ordering :=
  if x < y then Ordering.lt else if x = y then Ordering.eq else Ordering.gt

/-- Lexicographic comparison of lists of naturals. -/
def listCmp : List Nat → List Nat → Ordering
  | [], [] => Ordering.eq
  | [], _ :: _ => Ordering.lt
  | _ :: _, [] => Ordering.gt
  | x :: xs, y :: ys =>
    match natCmp x y with
    | Ordering.eq => listCmp xs ys
    | o => o

/-- Primary collation weight of a character, following the default ICU
root collation used by `localeCompare` on the characters occurring in
env keys: characters that are neither letters nor digits (punctuation
such as the underscore) sort first, then digits, then letters, and
letters compare case-insensitively.  Within the non-alphanumeric class
the model falls back to code points, which agrees with the root
collation on the underscore, the only such character in ordinary
keys. -/
def primaryWeight (c : Char) : Nat :=
  if c.isAlpha then 8589934592 + c.toLower.toNat
  else if c.isDigit then 4294967296 + c.toNat
  else c.toNat

/-- Tertiary collation weight of a character: among characters with equal
primary weight (case variants of one letter), lowercase sorts before
uppercase; the code point keeps the weight injective. -/
def tertiaryWeight (c : Char) : Nat :=
  (if c.isLower then 0 else 4294967296) + c.toNat

/-- Embedding of JavaScript `String.prototype.localeCompare` under the
default locale (ICU root collation), restricted to the ASCII strings
used as env keys: a full primary pass (punctuation such as the
underscore before digits before case-insensitive letters), then a
lowercase-before-uppercase tertiary pass on ties.  In particular
`localeCompare "a" "B" = .lt` while the code-point order puts `"B"`
first, and `localeCompare "API_KEY" "API2" = .lt` while the code-point
order puts `"API2"` first. -/
def localeCompare (a b : String) : Ordering :=
  match listCmp (a.data.map primaryWeight) (b.data.map primaryWeight) with
  | Ordering.eq => listCmp (a.data.map tertiaryWeight) (b.data.map tertiaryWeight)
  | o => o

/-- Relation "sorts no later than" induced by `localeCompare`, the order
used by the serializer's `.sort((a, b) => a.localeCompare(b))`. -/
def localeLe (a b : String) : Prop :=
  localeCompare a b ≠ Ordering.gt

instance : DecidableRel localeLe := fun a b => by
  unfold localeLe
  infer_instance

/-- Order on entries by key, as used by the serializer's sort. -/
def entryLe (p q : String × String) : Prop :=
  localeLe p.1 q.1

instance : DecidableRel entryLe := fun p q => by
  unfold entryLe
  infer_instance

/-- Replacement of every occurrence of one character by a string,
embedding a global single-character regex `replace`. -/
def replaceCharL (c : Char) (r : List Char) : List Char → List Char
  | [] => []
  | x :: xs =>
    if x = c then r ++ replaceCharL c r xs else x :: replaceCharL c r xs

/-- Escaping of a serialized value, embedded from `serializeEnv`: every
backslash becomes two backslashes, then every double quote becomes
backslash double quote. -/
def escapeEnvValue (v : String) : String :=
  String.mk (replaceCharL '"' ['\\', '"'] (replaceCharL '\\' ['\\', '\\'] v.data))

/-- Rendering of one entry as `KEY="escaped-value"`. -/
def renderEntry (kv : String × String) : String :=
  kv.1 ++ "=\"" ++ escapeEnvValue kv.2 ++ "\""

/-- Join of lines with newline, embedding `Array.prototype.join("\n")`. -/
def joinLines : List String → String
  | [] => ""
  | [l] => l
  | l :: ls => l ++ "\n" ++ joinLines ls

/-- Embedding of `serializeEnv` (the serializer of the synchronizer):
sort the entries with the `localeCompare` comparator, render each as
`KEY="escaped-value"`, join with newline. -/
def serializeEnv (env : EnvMap) : String :=
  joinLines ((List.insertionSort entryLe env).map renderEntry)

/-- Prefix test on character lists. -/
def isPre : List Char → List Char → Bool
  | [], _ => true
  | _ :: _, [] => false
  | a :: as, b :: bs => a = b && isPre as bs

/-- Substring test on character lists (`needle` occurs inside `hay`). -/
def hasInfix : List Char → List Char → Bool
  | [], needle => isPre needle []
  | c :: t, needle => isPre needle (c :: t) || hasInfix t needle

/-- Substring test on strings, embedding `RegExp.test` with a literal
pattern (the keys interpolated into the patterns of the validator are
plain word characters, so the regex test is a substring test). -/
def strContains (s pat : String) : Bool :=
  hasInfix s.data pat.data

/-- Literal text of a `$\x7bKEY\x7d` reference. -/
def tokenStr (k : String) : String :=
  "$\x7b" ++ k ++ "\x7d"

/-- Join with `", "`, embedding `Array.prototype.join(", ")`. -/
def joinComma : List String → String
  | [] => ""
  | [k] => k
  | k :: ks => k ++ ", " ++ joinComma ks

/-- Generic key lookup in an association list (used for the file-contents
map and the link plan). -/
def lookupKey {α : Type} : List (String × α) → String → Option α
  | [], _ => none
  | (k, v) :: rest, key => if k = key then some v else lookupKey rest key

/-- Configuration of the synchronizer, embedded from the zod schema of
`types.ts`: the template path, the input-file-to-target-folder record (as
an ordered entry list), the output file name and the symlink relative
paths. -/
structure Config : Type where
  template : String
  inputFilesToFolders : List (String × String)
  outputFile : String
  symlinksToOuputFile : List String
deriving DecidableEq, Repr

/-- One generated env file: its path and its content. -/
structure GeneratedFile : Type where
  path : String
  content : String
deriving DecidableEq, Repr

/-- Embedding of `path.join(a, b)` of node for already-normalized
relative path segments, where it concatenates with the separator. -/
def pathJoin (a b : String) : String :=
  a ++ "/" ++ b

/-- Embedding of `validateNoConflicts` (validateEnvInputs.ts): an input
key conflicts when it also exists among the template's own keys and the
raw template text nowhere contains a `$\x7bKEY\x7d` reference to it; on a
conflict the error names the input file and the conflicting keys. -/
def validateNoConflicts (templateVars inputVars : EnvMap) (inputFile : String)
    (templateContent : String) : Except String Unit :=
  match (envKeys inputVars).filter (fun k =>
      (lookupEnv templateVars k).isSome && !(strContains templateContent (tokenStr k))) with
  | [] => Except.ok ()
  | c :: cs =>
    Except.error ("Template has literal values for keys also in input file \"" ++
      inputFile ++ "\": " ++ joinComma (c :: cs) ++
      ". Use $\x7b" ++ c ++ "\x7d to reference the input value.")

/-- Embedding of `validateEnvInputs` (validateEnvInputs.ts): runs the
conflict check for every parsed input file, stopping at the first
error. -/
def validateEnvInputs (templateVars : EnvMap) (inputFiles : List (String × EnvMap))
    (templateContent : String) : Except String Unit :=
  match inputFiles with
  | [] => Except.ok ()
  | (sourceFile, vars) :: rest =>
    match validateNoConflicts templateVars vars sourceFile templateContent with
    | Except.error e => Except.error e
    | Except.ok _ => validateEnvInputs templateVars rest templateContent

/-- Inner loop of `validateInputFilesConsistency`, comparing every input
file after the first against the first one; returns the logged lines and
the thrown error message, if any (the source logs with `console.log` and
throws on the first mismatching file). -/
def checkConsistencyRest (firstFile : String) (firstVars : EnvMap) :
    List (String × EnvMap) → List String × Option String
  | [] => ([], none)
  | (file, vars) :: rest =>
    let missingKeys := (envKeys firstVars).filter fun k => !(envKeys vars).contains k
    let extraKeys := (envKeys vars).filter fun k => !(envKeys firstVars).contains k
    if missingKeys.isEmpty && extraKeys.isEmpty then
      checkConsistencyRest firstFile firstVars rest
    else
      (["Input file inconsistency detected:",
        "  Comparing " ++ file ++ " to " ++ firstFile] ++
        (if missingKeys.isEmpty then [] else ["  Missing keys: " ++ joinComma missingKeys]) ++
        (if extraKeys.isEmpty then [] else ["  Extra keys: " ++ joinComma extraKeys]),
       some "Input files have inconsistent keys")

/-- Embedding of `validateInputFilesConsistency` (the strict key-set
equality check): with fewer than two input files it does nothing;
otherwise each later file's key set is compared to the first file's, and
a difference logs the details and throws. -/
def validateInputFilesConsistency : List (String × EnvMap) → List String × Option String
  | [] => ([], none)
  | [_] => ([], none)
  | (firstFile, firstVars) :: rest => checkConsistencyRest firstFile firstVars rest

/-- Embedding of `processTemplate` (index.ts): every `$\x7bNAME\x7d`
reference found in the raw template text must be a key of the input
mapping, else the function throws "Template references missing variable";
otherwise it returns the list of input keys never referenced in the
template (printed by the source as a non-fatal `console.warn` warning)
together with the template parsed with the input mapping as the
interpolation scope. -/
def processTemplate (hostEnv : EnvMap) (templateContent : String) (inputVars : EnvMap) :
    Except String (List String × EnvMap) :=
  match (tokensOf templateContent).find? (fun n => (lookupEnv inputVars n).isNone) with
  | some n => Except.error ("Template references missing variable: " ++ n)
  | none =>
    let unusedVars := (envKeys inputVars).filter fun k => !(tokensOf templateContent).contains k
    Except.ok (unusedVars, dotenvxParse hostEnv templateContent (some inputVars))

/-- Parsing of all input files of the configuration, in record order,
embedded from the input-reading loop of `generateEnvFiles`; a file whose
content is absent (or empty, which is falsy in the source's check) stops
everything with "Input file not found". -/
def parseInputFiles (hostEnv : EnvMap) (fileMap : List (String × String)) :
    List (String × String) → Except String (List (String × EnvMap))
  | [] => Except.ok []
  | (sourceFile, _) :: rest =>
    let content := (lookupKey fileMap sourceFile).getD ""
    if content = "" then Except.error ("Input file not found: " ++ sourceFile)
    else
      match parseInputFiles hostEnv fileMap rest with
      | Except.error e => Except.error e
      | Except.ok tl => Except.ok ((sourceFile, dotenvxParse hostEnv content (some [])) :: tl)

/-- Per-target-folder generation loop of `generateEnvFiles`: interpolate
the template against the folder's input mapping and serialize the result
to `targetFolder/outputFile`; the first failure aborts the whole batch
with no partial results. -/
def generateLoop (hostEnv : EnvMap) (templateContent : String)
    (inputFiles : List (String × EnvMap)) (outputFile : String) :
    List (String × String) → Except String (List GeneratedFile)
  | [] => Except.ok []
  | (sourceFile, targetFolder) :: rest =>
    let inputVars := (lookupKey inputFiles sourceFile).getD []
    match processTemplate hostEnv templateContent inputVars with
    | Except.error e => Except.error e
    | Except.ok pr =>
      match generateLoop hostEnv templateContent inputFiles outputFile rest with
      | Except.error e => Except.error e
      | Except.ok tl =>
        Except.ok ({ path := pathJoin targetFolder outputFile,
                     content := serializeEnv pr.2 } :: tl)

/-- Embedding of `generateEnvFiles` (index.ts), the pure generator: load
the template (a missing or empty content is falsy and fails "Template
file not found"), parse it with an empty interpolation scope, parse all
input files, run the template/input conflict validation, then produce one
generated file per target folder.  `hostEnv` is the live environment of
the host process, which the source never lets `dotenvx` consult: every
parse passes an explicit `processEnv`. -/
def generateEnvFiles (hostEnv : EnvMap) (config : Config)
    (fileMap : List (String × String)) : Except String (List GeneratedFile) :=
  let templateContent := (lookupKey fileMap config.template).getD ""
  if templateContent = "" then
    Except.error ("Template file not found: " ++ config.template)
  else
    let templateVars := dotenvxParse hostEnv templateContent (some [])
    match parseInputFiles hostEnv fileMap config.inputFilesToFolders with
    | Except.error e => Except.error e
    | Except.ok inputFiles =>
      match validateEnvInputs templateVars inputFiles templateContent with
      | Except.error e => Except.error e
      | Except.ok _ =>
        generateLoop hostEnv templateContent inputFiles config.outputFile
          config.inputFilesToFolders

/-- Embedding of `generateEnvLinks` (index.ts), the pure link-mapper: for
every target folder, map the generated file's path
`targetFolder/outputFile` to the symlink relative paths each prefixed
with that target folder; the result is keyed by generated file path with
`Map.set` semantics. -/
def generateEnvLinks (config : Config) : List (String × List String) :=
  config.inputFilesToFolders.foldl
    (fun result p =>
      setEntry result (pathJoin p.2 config.outputFile)
        (config.symlinksToOuputFile.map (pathJoin p.2))) []

/-! ### Substring lemmas -/

lemma isPre_refl (l : List Char) : isPre l l = true := by
  induction l with
  | nil => rfl
  | cons c t ih => simp [isPre, ih]

lemma isPre_extend {l a : List Char} (b : List Char) (h : isPre l a = true) :
    isPre l (a ++ b) = true := by
  induction l generalizing a with
  | nil => rfl
  | cons c t ih =>
    cases a with
    | nil => simp [isPre] at h
    | cons c₁ a₁ =>
      simp only [isPre, Bool.and_eq_true] at h
      simp only [List.cons_append, isPre, Bool.and_eq_true]
      exact ⟨h.1, ih h.2⟩

lemma hasInfix_of_isPre {h n : List Char} (hp : isPre n h = true) :
    hasInfix h n = true := by
  cases h with
  | nil => simpa [hasInfix] using hp
  | cons c t => simp [hasInfix, hp]

lemma hasInfix_append_left {b n : List Char} (a : List Char)
    (h : hasInfix b n = true) : hasInfix (a ++ b) n = true := by
  induction a with
  | nil => simpa using h
  | cons c t ih => simp [hasInfix, ih]

lemma hasInfix_append_right {a n : List Char} (b : List Char)
    (h : hasInfix a n = true) : hasInfix (a ++ b) n = true := by
  induction a with
  | nil =>
    simp only [hasInfix] at h
    exact hasInfix_of_isPre (isPre_extend b h)
  | cons c t ih =>
    simp only [hasInfix, Bool.or_eq_true] at h
    rcases h with h | h
    · have := isPre_extend b h
      simp only [List.cons_append] at this
      simp [hasInfix, this]
    · simp [hasInfix, ih h]

lemma hasInfix_self (l : List Char) : hasInfix l l = true :=
  hasInfix_of_isPre (isPre_refl l)

lemma hasInfix_surround {n : List Char} (a b : List Char) :
    hasInfix (a ++ (n ++ b)) n = true :=
  hasInfix_append_left a (hasInfix_append_right b (hasInfix_self n))

lemma strContains_surround (a n b : String) :
    strContains (a ++ n ++ b) n = true := by
  have : (a ++ n ++ b).data = a.data ++ (n.data ++ b.data) := by
    simp [String.data_append]
  simp only [strContains, this]
  exact hasInfix_surround a.data b.data

lemma hasInfix_joinComma {k : String} {ks : List String} (h : k ∈ ks) :
    hasInfix (joinComma ks).data k.data = true := by
  induction ks with
  | nil => cases h
  | cons k₁ ks ih =>
    cases ks with
    | nil =>
      rcases List.mem_singleton.mp h with rfl
      exact hasInfix_self _
    | cons k₂ ks₂ =>
      rcases List.mem_cons.mp h with rfl | h₂
      · show hasInfix (k ++ ", " ++ joinComma (k₂ :: ks₂)).data k.data = true
        have : (k ++ ", " ++ joinComma (k₂ :: ks₂)).data =
            k.data ++ (", " ++ joinComma (k₂ :: ks₂)).data := by
          simp [String.data_append]
        rw [this]
        exact hasInfix_append_right _ (hasInfix_self _)
      · show hasInfix (k₁ ++ ", " ++ joinComma (k₂ :: ks₂)).data k.data = true
        have : (k₁ ++ ", " ++ joinComma (k₂ :: ks₂)).data =
            (k₁ ++ ", ").data ++ (joinComma (k₂ :: ks₂)).data := by
          simp [String.data_append]
        rw [this]
        exact hasInfix_append_left _ (ih h₂)

/-! ### Ordering lemmas for the comparator -/

lemma natCmp_eq {x y : Nat} : natCmp x y = Ordering.eq ↔ x = y := by
  unfold natCmp
  split_ifs with h₁ h₂
  · exact ⟨fun h => h.elim, fun h => absurd h₁ (by omega)⟩
  · simp [h₂]
  · exact ⟨fun h => h.elim, fun h => absurd h h₂⟩

lemma natCmp_lt {x y : Nat} : natCmp x y = Ordering.lt ↔ x < y := by
  unfold natCmp
  split_ifs with h₁ h₂
  · simp [h₁]
  · exact ⟨fun h => h.elim, fun h => absurd h h₁⟩
  · exact ⟨fun h => h.elim, fun h => absurd h h₁⟩

lemma natCmp_gt {x y : Nat} : natCmp x y = Ordering.gt ↔ y < x := by
  unfold natCmp
  split_ifs with h₁ h₂
  · exact ⟨fun h => h.elim, fun h => absurd h (by omega)⟩
  · exact ⟨fun h => h.elim, fun h => absurd h (by omega)⟩
  · exact ⟨fun _ => by omega, fun _ => by trivial⟩

lemma natCmp_swap (x y : Nat) : natCmp y x = (natCmp x y).swap := by
  unfold natCmp
  split_ifs <;> first | rfl | (exfalso; omega)

lemma listCmp_eq_iff {a b : List Nat} : listCmp a b = Ordering.eq ↔ a = b := by
  induction a generalizing b with
  | nil => cases b <;> simp [listCmp]
  | cons x xs ih =>
    cases b with
    | nil => simp [listCmp]
    | cons y ys =>
      simp only [listCmp]
      cases hxy : natCmp x y with
      | eq =>
        have hx : x = y := natCmp_eq.mp hxy
        simp [hx, ih]
      | lt =>
        have hx : x < y := natCmp_lt.mp hxy
        simp only [List.cons.injEq]
        constructor
        · intro h
          cases h
        · rintro ⟨rfl, -⟩
          omega
      | gt =>
        have hx : y < x := natCmp_gt.mp hxy
        simp only [List.cons.injEq]
        constructor
        · intro h
          cases h
        · rintro ⟨rfl, -⟩
          omega

lemma listCmp_swap (a b : List Nat) : listCmp b a = (listCmp a b).swap := by
  induction a generalizing b with
  | nil => cases b <;> simp [listCmp, Ordering.swap]
  | cons x xs ih =>
    cases b with
    | nil => simp [listCmp, Ordering.swap]
    | cons y ys =>
      simp only [listCmp, natCmp_swap x y]
      cases natCmp x y <;> simp [Ordering.swap, ih]

lemma listCmp_lt_trans {a b c : List Nat} (h₁ : listCmp a b = Ordering.lt)
    (h₂ : listCmp b c = Ordering.lt) : listCmp a c = Ordering.lt := by
  induction a generalizing b c with
  | nil =>
    cases b with
    | nil => exact absurd h₁ (by simp [listCmp])
    | cons y ys =>
      cases c with
      | nil => exact absurd h₂ (by simp [listCmp])
      | cons z zs => simp [listCmp]
  | cons x xs ih =>
    cases b with
    | nil => exact absurd h₁ (by simp [listCmp])
    | cons y ys =>
      cases c with
      | nil => exact absurd h₂ (by simp [listCmp])
      | cons z zs =>
        simp only [listCmp] at h₁ h₂ ⊢
        cases hxy : natCmp x y with
        | gt => rw [hxy] at h₁; cases h₁
        | lt =>
          cases hyz : natCmp y z with
          | gt => rw [hyz] at h₂; cases h₂
          | lt =>
            have : x < z := lt_trans (natCmp_lt.mp hxy) (natCmp_lt.mp hyz)
            rw [natCmp_lt.mpr this]
          | eq =>
            have hy : y = z := natCmp_eq.mp hyz
            rw [natCmp_lt.mpr (hy ▸ natCmp_lt.mp hxy)]
        | eq =>
          have hx : x = y := natCmp_eq.mp hxy
          rw [hxy] at h₁
          cases hyz : natCmp y z with
          | gt => rw [hyz] at h₂; cases h₂
          | lt => rw [natCmp_lt.mpr (hx ▸ natCmp_lt.mp hyz)]
          | eq =>
            rw [hyz] at h₂
            rw [natCmp_eq.mpr (hx.trans (natCmp_eq.mp hyz))]
            exact ih h₁ h₂

lemma char_toNat_inj {c d : Char} (h : c.toNat = d.toNat) : c = d :=
  Char.ext (UInt32.toBitVec_injective (BitVec.toNat_injective h))

lemma char_toNat_lt (c : Char) : c.toNat < 4294967296 := by
  have := UInt32.toNat_lt c.val
  simpa using this

lemma tertiaryWeight_inj : Function.Injective tertiaryWeight := by
  intro c d h
  have hc := char_toNat_lt c
  have hd := char_toNat_lt d
  unfold tertiaryWeight at h
  split_ifs at h <;> first | exact char_toNat_inj (by omega) | omega

lemma localeCompare_eq_iff {a b : String} : localeCompare a b = Ordering.eq ↔ a = b := by
  constructor
  · intro h
    unfold localeCompare at h
    cases hp : listCmp (a.data.map primaryWeight) (b.data.map primaryWeight) with
    | lt => rw [hp] at h; exact Ordering.noConfusion h
    | gt => rw [hp] at h; exact Ordering.noConfusion h
    | eq =>
      rw [hp] at h
      replace h : listCmp (a.data.map tertiaryWeight) (b.data.map tertiaryWeight) =
          Ordering.eq := h
      have ht := listCmp_eq_iff.mp h
      have hdata : a.data = b.data :=
        List.map_injective_iff.mpr tertiaryWeight_inj ht
      exact String.ext hdata
  · rintro rfl
    unfold localeCompare
    rw [listCmp_eq_iff.mpr rfl]
    exact listCmp_eq_iff.mpr rfl

lemma localeCompare_swap (a b : String) : localeCompare b a = (localeCompare a b).swap := by
  unfold localeCompare
  rw [listCmp_swap (a.data.map primaryWeight) (b.data.map primaryWeight),
    listCmp_swap (a.data.map tertiaryWeight) (b.data.map tertiaryWeight)]
  cases listCmp (a.data.map primaryWeight) (b.data.map primaryWeight) <;>
    simp [Ordering.swap]

lemma localeCompare_lt_trans {a b c : String} (h₁ : localeCompare a b = Ordering.lt)
    (h₂ : localeCompare b c = Ordering.lt) : localeCompare a c = Ordering.lt := by
  unfold localeCompare at h₁ h₂ ⊢
  cases hp1 : listCmp (a.data.map primaryWeight) (b.data.map primaryWeight) with
  | gt => rw [hp1] at h₁; exact Ordering.noConfusion h₁
  | lt =>
    cases hp2 : listCmp (b.data.map primaryWeight) (c.data.map primaryWeight) with
    | gt => rw [hp2] at h₂; exact Ordering.noConfusion h₂
    | lt =>
      rw [listCmp_lt_trans hp1 hp2]
    | eq =>
      have hbc := listCmp_eq_iff.mp hp2
      rw [← hbc, hp1]
  | eq =>
    have hab := listCmp_eq_iff.mp hp1
    rw [hp1] at h₁
    replace h₁ : listCmp (a.data.map tertiaryWeight) (b.data.map tertiaryWeight) =
        Ordering.lt := h₁
    cases hp2 : listCmp (b.data.map primaryWeight) (c.data.map primaryWeight) with
    | gt => rw [hp2] at h₂; exact Ordering.noConfusion h₂
    | lt => rw [hab, hp2]
    | eq =>
      rw [hp2] at h₂
      replace h₂ : listCmp (b.data.map tertiaryWeight) (c.data.map tertiaryWeight) =
          Ordering.lt := h₂
      have hac : listCmp (a.data.map primaryWeight) (c.data.map primaryWeight) =
          Ordering.eq := by rw [hab]; exact hp2
      rw [hac]
      exact listCmp_lt_trans h₁ h₂

lemma localeLe_refl (a : String) : localeLe a a := by
  unfold localeLe
  rw [localeCompare_eq_iff.mpr rfl]
  simp

lemma localeLe_total (a b : String) : localeLe a b ∨ localeLe b a := by
  by_cases h : localeCompare a b = Ordering.gt
  · right
    unfold localeLe
    rw [localeCompare_swap, h]
    simp [Ordering.swap]
  · exact Or.inl h

lemma localeLe_trans {a b c : String} (hab : localeLe a b) (hbc : localeLe b c) :
    localeLe a c := by
  unfold localeLe at *
  cases h₁ : localeCompare a b with
  | gt => exact absurd h₁ hab
  | eq =>
    have : a = b := localeCompare_eq_iff.mp h₁
    subst this
    exact hbc
  | lt =>
    cases h₂ : localeCompare b c with
    | gt => exact absurd h₂ hbc
    | eq =>
      have : b = c := localeCompare_eq_iff.mp h₂
      subst this
      simp [h₁]
    | lt =>
      rw [localeCompare_lt_trans h₁ h₂]
      simp

instance : IsTotal (String × String) entryLe :=
  ⟨fun p q => localeLe_total p.1 q.1⟩

instance : IsTrans (String × String) entryLe :=
  ⟨fun _ _ _ hab hbc => localeLe_trans hab hbc⟩

lemma eq_of_perm_sorted_nodupKeys : ∀ {l₁ l₂ : EnvMap}, l₁.Perm l₂ →
    List.Sorted entryLe l₁ → List.Sorted entryLe l₂ →
    (l₁.map Prod.fst).Nodup → l₁ = l₂ := by
  intro l₁
  induction l₁ with
  | nil =>
    intro l₂ hp _ _ _
    exact (hp.symm.eq_nil).symm
  | cons a t ih =>
    intro l₂ hp hs₁ hs₂ hnd
    cases l₂ with
    | nil => exact absurd hp.eq_nil (by simp)
    | cons b t₂ =>
      have hamem : a ∈ b :: t₂ := hp.subset (List.mem_cons_self a t)
      have hbmem : b ∈ a :: t := hp.symm.subset (List.mem_cons_self b t₂)
      have hle1 : entryLe a b := by
        rcases List.mem_cons.mp hbmem with rfl | hbt
        · exact localeLe_refl _
        · exact (List.sorted_cons.mp hs₁).1 b hbt
      have hle2 : entryLe b a := by
        rcases List.mem_cons.mp hamem with rfl | hat
        · exact localeLe_refl _
        · exact (List.sorted_cons.mp hs₂).1 a hat
      have hkey : a.1 = b.1 := by
        cases hc : localeCompare a.1 b.1 with
        | eq => exact localeCompare_eq_iff.mp hc
        | gt => exact absurd hc hle1
        | lt =>
          have hgt : localeCompare b.1 a.1 = Ordering.gt := by
            rw [localeCompare_swap, hc]
            rfl
          exact absurd hgt hle2
      have hab : a = b := by
        rcases List.mem_cons.mp hbmem with rfl | hbt
        · rfl
        · exfalso
          have hmem : b.1 ∈ t.map Prod.fst := List.mem_map_of_mem Prod.fst hbt
          rw [← hkey] at hmem
          rw [List.map_cons] at hnd
          exact (List.nodup_cons.mp hnd).1 hmem
      subst hab
      have hrec := ih hp.cons_inv (List.sorted_cons.mp hs₁).2 (List.sorted_cons.mp hs₂).2
        (by rw [List.map_cons] at hnd; exact (List.nodup_cons.mp hnd).2)
      rw [hrec]

/-- Code-point (byte / lexicographic, not locale-aware) "sorts no later
than" order on entries by key, following the claim's words; used only to
compare against the order the implementation actually uses. -/
def byteLe (p q : String × String) : Prop :=
  listCmp (p.1.data.map Char.toNat) (q.1.data.map Char.toNat) ≠ Ordering.gt

instance : DecidableRel byteLe := fun p q => by
  unfold byteLe
  infer_instance

/-- Serialization as the claim describes it: entries sorted ascending by
key in code-point (byte/lexicographic) order, rendered and joined with
newline. -/
def serializeEnvByteSorted (env : EnvMap) : String :=
  joinLines ((List.insertionSort byteLe env).map renderEntry)

/-- C2 counterexample: on the mapping `{a ↦ 1, B ↦ 2}` the serializer
emits the locale order `a`, `B` (lowercase first), not the byte order
`B`, `a`; and on the ordinary keys `API_KEY` and `API2` it emits
`API_KEY` first (underscore before digits in the root collation) while
byte order puts `API2` first.  The output is therefore not sorted by
byte/lexicographic key order as the claim states. -/
theorem serializeEnv_byteOrder_cex :
    serializeEnv [("a", "1"), ("B", "2")] = "a=\"1\"\nB=\"2\"" ∧
    serializeEnvByteSorted [("a", "1"), ("B", "2")] = "B=\"2\"\na=\"1\"" ∧
    serializeEnv [("a", "1"), ("B", "2")] ≠
      serializeEnvByteSorted [("a", "1"), ("B", "2")] ∧
    serializeEnv [("API_KEY", "1"), ("API2", "2")] = "API_KEY=\"1\"\nAPI2=\"2\"" ∧
    serializeEnvByteSorted [("API_KEY", "1"), ("API2", "2")] =
      "API2=\"2\"\nAPI_KEY=\"1\"" ∧
    serializeEnv [("API_KEY", "1"), ("API2", "2")] ≠
      serializeEnvByteSorted [("API_KEY", "1"), ("API2", "2")] := by
  refine ⟨by decide, by decide, by decide, by decide, by decide, by decide⟩

/-- C2 (amended): the serializer's output is the entries sorted ascending
by key in the locale-aware `localeCompare` order — punctuation such as
the underscore before digits before case-insensitive letters, lowercase
before uppercase on ties — not byte order; in particular for mappings
with unique keys the output depends only on the set of key-value pairs
and not on insertion order, so identical mappings always produce
byte-identical output. -/
theorem serializeEnv_localeSorted (env₁ env₂ : EnvMap)
    (hnd : (env₁.map Prod.fst).Nodup) (hp : env₁.Perm env₂) :
    serializeEnv env₁ = serializeEnv env₂ ∧
    List.Sorted entryLe (List.insertionSort entryLe env₁) ∧
    (List.insertionSort entryLe env₁).Perm env₁ := by
  refine ⟨?_, List.sorted_insertionSort entryLe env₁, List.perm_insertionSort entryLe env₁⟩
  have hps : (List.insertionSort entryLe env₁).Perm (List.insertionSort entryLe env₂) :=
    ((List.perm_insertionSort entryLe env₁).trans hp).trans
      (List.perm_insertionSort entryLe env₂).symm
  have hnd₁ : ((List.insertionSort entryLe env₁).map Prod.fst).Nodup :=
    (((List.perm_insertionSort entryLe env₁).map Prod.fst).nodup_iff).mpr hnd
  have heq := eq_of_perm_sorted_nodupKeys hps
    (List.sorted_insertionSort entryLe env₁) (List.sorted_insertionSort entryLe env₂) hnd₁
  unfold serializeEnv
  rw [heq]

/-- C2 witness: two insertion orders of the same two-entry mapping
serialize identically, both on single-letter keys and on the ordinary
keys `API_KEY` and `API2`. -/
theorem serializeEnv_localeSorted_witness :
    serializeEnv [("B", "2"), ("a", "1")] = serializeEnv [("a", "1"), ("B", "2")] ∧
    serializeEnv [("API2", "2"), ("API_KEY", "1")] =
      serializeEnv [("API_KEY", "1"), ("API2", "2")] :=
  ⟨(serializeEnv_localeSorted [("B", "2"), ("a", "1")] [("a", "1"), ("B", "2")]
      (by decide) (by decide)).1,
    (serializeEnv_localeSorted [("API2", "2"), ("API_KEY", "1")]
      [("API_KEY", "1"), ("API2", "2")] (by decide) (by decide)).1⟩

/-- Character-wise escaping as the claim words it: a backslash becomes
two backslashes, a double quote becomes backslash double quote, and no
other character is changed. -/
def escapeCharSpec (c : Char) : List Char :=
  if c = '\\' then ['\\', '\\'] else if c = '"' then ['\\', '"'] else [c]

/-- Unescaping: a backslash followed by any character yields that
character; other characters are kept. -/
def unescapeChars : List Char → List Char
  | [] => []
  | c :: rest =>
    if c = '\\' then
      match rest with
      | [] => [c]
      | c₂ :: rest₂ => c₂ :: unescapeChars rest₂
    else c :: unescapeChars rest

/-- Unescaping of a serialized value. -/
def unescapeValue (v : String) : String :=
  String.mk (unescapeChars v.data)

lemma replaceCharL_append (c : Char) (r a b : List Char) :
    replaceCharL c r (a ++ b) = replaceCharL c r a ++ replaceCharL c r b := by
  induction a with
  | nil => rfl
  | cons x xs ih =>
    by_cases hx : x = c <;> simp [replaceCharL, hx, ih]

lemma replaceCharL_cons (c : Char) (r : List Char) (x : Char) (xs : List Char) :
    replaceCharL c r (x :: xs) =
      if x = c then r ++ replaceCharL c r xs else x :: replaceCharL c r xs := rfl

lemma escapeSpecChars_eq (l : List Char) :
    replaceCharL '"' ['\\', '"'] (replaceCharL '\\' ['\\', '\\'] l) =
      (l.map escapeCharSpec).flatten := by
  induction l with
  | nil => rfl
  | cons x xs ih =>
    rw [List.map_cons, List.flatten_cons, replaceCharL_cons]
    by_cases h1 : x = '\\'
    · subst h1
      rw [if_pos rfl, replaceCharL_append]
      have hbs : replaceCharL '"' ['\\', '"'] ['\\', '\\'] = ['\\', '\\'] := rfl
      rw [hbs, ih]
      rfl
    · rw [if_neg h1, replaceCharL_cons]
      by_cases h2 : x = '"'
      · subst h2
        rw [if_pos rfl, ih]
        rfl
      · rw [if_neg h2, ih]
        have hx : escapeCharSpec x = [x] := by simp [escapeCharSpec, h1, h2]
        rw [hx]
        rfl

lemma escapeEnvValue_spec (v : String) :
    escapeEnvValue v = String.mk ((v.data.map escapeCharSpec).flatten) := by
  unfold escapeEnvValue
  rw [escapeSpecChars_eq]

lemma unescapeChars_ne_cons {x : Char} (h : x ≠ '\\') (rest : List Char) :
    unescapeChars (x :: rest) = x :: unescapeChars rest := by
  rw [unescapeChars.eq_def]
  simp [h]

lemma unescape_escape (l : List Char) :
    unescapeChars ((l.map escapeCharSpec).flatten) = l := by
  induction l with
  | nil => rfl
  | cons x xs ih =>
    rw [List.map_cons, List.flatten_cons]
    by_cases h1 : x = '\\'
    · subst h1
      show unescapeChars ('\\' :: '\\' :: (xs.map escapeCharSpec).flatten) = _
      have hstep : ∀ (c : Char) (r : List Char),
          unescapeChars ('\\' :: c :: r) = c :: unescapeChars r := fun c r => rfl
      rw [hstep, ih]
    · by_cases h2 : x = '"'
      · subst h2
        show unescapeChars ('\\' :: '"' :: (xs.map escapeCharSpec).flatten) = _
        have hstep : ∀ (c : Char) (r : List Char),
            unescapeChars ('\\' :: c :: r) = c :: unescapeChars r := fun c r => rfl
        rw [hstep, ih]
      · have hx : escapeCharSpec x = [x] := by simp [escapeCharSpec, h1, h2]
        rw [hx, List.singleton_append, unescapeChars_ne_cons h1, ih]

/-- C4: the serializer renders each entry as `KEY="escaped-value"` where
the escaped value is exactly the character-wise escape that doubles
backslashes and backslash-escapes double quotes, and escapes nothing
else; unescaping always recovers the original value, and the `MESSAGE`
example of the claim serializes as stated. -/
theorem serializeEnv_escaping :
    (∀ env : EnvMap, serializeEnv env =
      joinLines ((List.insertionSort entryLe env).map
        (fun kv => kv.1 ++ "=\"" ++ String.mk ((kv.2.data.map escapeCharSpec).flatten) ++ "\""))) ∧
    (∀ c : Char, c ≠ '\\' → c ≠ '"' → escapeCharSpec c = [c]) ∧
    (∀ v : String, unescapeValue (escapeEnvValue v) = v) ∧
    serializeEnv [("MESSAGE", "hello \"world\"")] = "MESSAGE=\"hello \\\"world\\\"\"" := by
  refine ⟨fun env => ?_, fun c h₁ h₂ => by simp [escapeCharSpec, h₁, h₂], fun v => ?_,
    by decide⟩
  · unfold serializeEnv renderEntry
    simp only [escapeEnvValue_spec]
  · unfold unescapeValue
    rw [escapeEnvValue_spec]
    show String.mk (unescapeChars ((v.data.map escapeCharSpec).flatten)) = v
    rw [unescape_escape]

/-- C4 witness: an unescaped character is kept unchanged, and a concrete
escape round-trips. -/
theorem serializeEnv_escaping_witness :
    escapeCharSpec 'x' = ['x'] ∧ unescapeValue (escapeEnvValue "a\\b\"c") = "a\\b\"c" :=
  ⟨serializeEnv_escaping.2.1 'x' (by decide) (by decide),
    serializeEnv_escaping.2.2.1 "a\\b\"c"⟩

/-! ### Link-mapper lemmas -/

lemma lookupKey_setEntry_self {α : Type} (m : List (String × α)) (k : String) (v : α) :
    lookupKey (setEntry m k v) k = some v := by
  induction m with
  | nil => simp [setEntry, lookupKey]
  | cons p rest ih =>
    by_cases h : p.1 = k
    · simp [setEntry, h, lookupKey]
    · simp [setEntry, h, lookupKey, ih]

lemma lookupKey_setEntry_ne {α : Type} (m : List (String × α)) {k k' : String} (v : α)
    (h : k ≠ k') : lookupKey (setEntry m k v) k' = lookupKey m k' := by
  induction m with
  | nil => simp [setEntry, lookupKey, h]
  | cons p rest ih =>
    by_cases hp : p.1 = k
    · simp [setEntry, hp, lookupKey, h]
    · simp [setEntry, hp, lookupKey, ih]

lemma mem_keys_setEntry {α : Type} (m : List (String × α)) (k : String) (v : α)
    (k' : String) :
    (k' ∈ (setEntry m k v).map Prod.fst) ↔ k' ∈ m.map Prod.fst ∨ k' = k := by
  induction m with
  | nil => simp [setEntry]
  | cons p rest ih =>
    by_cases hp : p.1 = k
    · subst hp
      simp [setEntry]
      tauto
    · simp [setEntry, hp, ih]
      tauto

lemma nodup_keys_setEntry {α : Type} (m : List (String × α)) (k : String) (v : α)
    (h : ((m.map Prod.fst)).Nodup) : ((setEntry m k v).map Prod.fst).Nodup := by
  induction m with
  | nil => simp [setEntry]
  | cons p rest ih =>
    by_cases hp : p.1 = k
    · simpa [setEntry, hp] using h
    · rw [List.map_cons, List.nodup_cons] at h
      have hrec := ih h.2
      rw [setEntry, if_neg hp, List.map_cons, List.nodup_cons]
      refine ⟨fun hmem => ?_, hrec⟩
      rcases (mem_keys_setEntry rest k v p.1).mp hmem with hm | hm
      · exact h.1 hm
      · exact hp hm

lemma pathJoin_right_cancel {a b o : String} (h : pathJoin a o = pathJoin b o) :
    a = b := by
  have hd : a.data ++ '/' :: o.data = b.data ++ '/' :: o.data := by
    have := congrArg String.data h
    simpa [pathJoin, String.data_append] using this
  exact String.ext (List.append_inj' hd rfl).1

/-- Path-ancestor relation on folder paths: `a` is an ancestor of `b`
when `b` starts with `a` followed by a path separator. -/
def pathAncestor (a b : String) : Prop :=
  (a.data ++ ['/']) <+: b.data

instance : DecidableRel pathAncestor := fun a b => by
  unfold pathAncestor
  infer_instance

lemma prefix_of_append_sep_eq {x y u v : List Char}
    (h : x ++ '/' :: u = y ++ '/' :: v) (hlen : x.length < y.length) :
    (x ++ ['/']) <+: y := by
  have htake := congrArg (List.take (x.length + 1)) h
  rw [List.take_append_eq_append_take, List.take_append_eq_append_take] at htake
  rw [List.take_of_length_le (Nat.le_succ x.length)] at htake
  have h2 : x.length + 1 - x.length = 1 := by omega
  have h4 : x.length + 1 - y.length = 0 := by omega
  rw [h2, h4] at htake
  have h3 : List.take 1 ('/' :: u) = ['/'] := rfl
  rw [h3, List.take_zero, List.append_nil] at htake
  rw [htake]
  exact List.take_prefix _ _

lemma pathJoin_eq_cases {t₁ s₁ t₂ s₂ : String}
    (h : pathJoin t₁ s₁ = pathJoin t₂ s₂) :
    t₁ = t₂ ∨ pathAncestor t₁ t₂ ∨ pathAncestor t₂ t₁ := by
  have hd : t₁.data ++ '/' :: s₁.data = t₂.data ++ '/' :: s₂.data := by
    have := congrArg String.data h
    simpa [pathJoin, String.data_append] using this
  rcases Nat.lt_trichotomy t₁.data.length t₂.data.length with hlt | heq | hgt
  · exact Or.inr (Or.inl (prefix_of_append_sep_eq hd hlt))
  · exact Or.inl (String.ext (List.append_inj hd heq).1)
  · exact Or.inr (Or.inr (prefix_of_append_sep_eq hd.symm hgt))

/-- Abstraction of the fold building the link plan, for reasoning by
induction over the target-folder entries. -/
def linkFold (out : String) (links : String → List String)
    (acc : List (String × List String)) (entries : List (String × String)) :
    List (String × List String) :=
  entries.foldl (fun result p => setEntry result (pathJoin p.2 out) (links p.2)) acc

lemma generateEnvLinks_eq_linkFold (config : Config) :
    generateEnvLinks config = linkFold config.outputFile
      (fun tf => config.symlinksToOuputFile.map (pathJoin tf)) []
      config.inputFilesToFolders := rfl

lemma linkFold_lookup_skip (out : String) (links : String → List String) :
    ∀ (entries : List (String × String)) (acc : List (String × List String))
      (k : String), (∀ p ∈ entries, pathJoin p.2 out ≠ k) →
      lookupKey (linkFold out links acc entries) k = lookupKey acc k := by
  intro entries
  induction entries with
  | nil => intro acc k _; rfl
  | cons e rest ih =>
    intro acc k hk
    rw [linkFold, List.foldl_cons]
    have h1 := ih (setEntry acc (pathJoin e.2 out) (links e.2)) k
      (fun p hp => hk p (List.mem_cons_of_mem e hp))
    rw [linkFold] at h1
    rw [h1]
    exact lookupKey_setEntry_ne acc (links e.2) (hk e (List.mem_cons_self e rest))

lemma linkFold_lookup_mem (out : String) (links : String → List String) :
    ∀ (entries : List (String × String)) (acc : List (String × List String))
      (tf : String), tf ∈ entries.map Prod.snd →
      lookupKey (linkFold out links acc entries) (pathJoin tf out) = some (links tf) := by
  intro entries
  induction entries with
  | nil => intro acc tf h; cases h
  | cons e rest ih =>
    intro acc tf htf
    rw [linkFold, List.foldl_cons]
    by_cases hrest : tf ∈ rest.map Prod.snd
    · have := ih (setEntry acc (pathJoin e.2 out) (links e.2)) tf hrest
      rw [linkFold] at this
      exact this
    · have hte : tf = e.2 := by
        rw [List.map_cons] at htf
        rcases List.mem_cons.mp htf with h | h
        · exact h
        · exact absurd h hrest
      subst hte
      have hskip := linkFold_lookup_skip out links rest
        (setEntry acc (pathJoin e.2 out) (links e.2)) (pathJoin e.2 out)
        (fun p hp heq => hrest (by
          rw [← pathJoin_right_cancel heq]
          exact List.mem_map_of_mem Prod.snd hp))
      rw [linkFold] at hskip
      rw [hskip]
      exact lookupKey_setEntry_self acc (pathJoin e.2 out) (links e.2)

lemma linkFold_mem_keys (out : String) (links : String → List String) :
    ∀ (entries : List (String × String)) (acc : List (String × List String))
      (k : String), (k ∈ (linkFold out links acc entries).map Prod.fst) ↔
      k ∈ acc.map Prod.fst ∨ k ∈ entries.map (fun p => pathJoin p.2 out) := by
  intro entries
  induction entries with
  | nil => intro acc k; simp [linkFold]
  | cons e rest ih =>
    intro acc k
    rw [linkFold, List.foldl_cons]
    have h1 := ih (setEntry acc (pathJoin e.2 out) (links e.2)) k
    rw [linkFold] at h1
    rw [h1, mem_keys_setEntry]
    simp only [List.map_cons, List.mem_cons]
    tauto

lemma linkFold_nodup_keys (out : String) (links : String → List String) :
    ∀ (entries : List (String × String)) (acc : List (String × List String)),
      ((acc.map Prod.fst)).Nodup → ((linkFold out links acc entries).map Prod.fst).Nodup := by
  intro entries
  induction entries with
  | nil => intro acc h; exact h
  | cons e rest ih =>
    intro acc h
    rw [linkFold, List.foldl_cons]
    have := ih (setEntry acc (pathJoin e.2 out) (links e.2))
      (nodup_keys_setEntry acc (pathJoin e.2 out) (links e.2) h)
    rw [linkFold] at this
    exact this

/-- C8 counterexample: with target folders `a` and `a/b` and symlink
paths `b/c` and `c`, the two distinct target folders both compute the
link destination `a/b/c`, so the per-folder link destination sets are not
pairwise disjoint as the claim states. -/
theorem generateEnvLinks_disjoint_cex :
    generateEnvLinks ⟨"t", [("f1", "a"), ("f2", "a/b")], ".env", ["b/c", "c"]⟩ =
      [("a/.env", ["a/b/c", "a/c"]), ("a/b/.env", ["a/b/b/c", "a/b/c"])] ∧
    ("a" : String) ∈ [("f1", "a"), ("f2", "a/b")].map Prod.snd ∧
    ("a/b" : String) ∈ [("f1", "a"), ("f2", "a/b")].map Prod.snd ∧
    ("a" : String) ≠ "a/b" ∧
    ("a/b/c" : String) ∈ ["b/c", "c"].map (pathJoin "a") ∧
    ("a/b/c" : String) ∈ ["b/c", "c"].map (pathJoin "a/b") := by
  exact ⟨by decide, by decide, by decide, by decide, by decide, by decide⟩

/-- C8 (amended): the link plan maps each generated file path
`targetFolder/outputFile` to exactly the configured symlink relative
paths prefixed with that same target folder; and provided no target
folder is a path ancestor of another (which the claim's folder layouts
satisfy, but nested folders such as `a` and `a/b` violate), the link
destination sets of distinct target folders are pairwise disjoint. -/
theorem generateEnvLinks_spec (config : Config)
    (hfree : ∀ t₁ ∈ config.inputFilesToFolders.map Prod.snd,
      ∀ t₂ ∈ config.inputFilesToFolders.map Prod.snd,
        t₁ ≠ t₂ → ¬ pathAncestor t₁ t₂) :
    (∀ tf ∈ config.inputFilesToFolders.map Prod.snd,
      lookupKey (generateEnvLinks config) (pathJoin tf config.outputFile) =
        some (config.symlinksToOuputFile.map (pathJoin tf))) ∧
    (∀ t₁ ∈ config.inputFilesToFolders.map Prod.snd,
      ∀ t₂ ∈ config.inputFilesToFolders.map Prod.snd, t₁ ≠ t₂ →
        ∀ p ∈ config.symlinksToOuputFile.map (pathJoin t₁),
          p ∉ config.symlinksToOuputFile.map (pathJoin t₂)) := by
  constructor
  · intro tf htf
    rw [generateEnvLinks_eq_linkFold]
    exact linkFold_lookup_mem config.outputFile _ config.inputFilesToFolders [] tf htf
  · intro t₁ h₁ t₂ h₂ hne p hp₁ hp₂
    rcases List.mem_map.mp hp₁ with ⟨s₁, _, rfl⟩
    rcases List.mem_map.mp hp₂ with ⟨s₂, _, heq⟩
    rcases pathJoin_eq_cases heq.symm with h | h | h
    · exact hne h
    · exact hfree t₁ h₁ t₂ h₂ hne h
    · exact hfree t₂ h₂ t₁ h₁ (fun hh => hne hh.symm) h

/-- C8 witness: on a two-worktree configuration with sibling target
folders the plan maps each generated file to its folder's symlink
paths. -/
theorem generateEnvLinks_spec_witness :
    lookupKey (generateEnvLinks ⟨".env.template", [(".env.w1", "wt1"), (".env.w2", "wt2")],
        ".env.local", ["apps/web/.env.local"]⟩) (pathJoin "wt1" ".env.local") =
      some (["apps/web/.env.local"].map (pathJoin "wt1")) :=
  (generateEnvLinks_spec ⟨".env.template", [(".env.w1", "wt1"), (".env.w2", "wt2")],
      ".env.local", ["apps/web/.env.local"]⟩ (by decide)).1 "wt1" (by decide)

/-- C10: the link plan is keyed by generated file path, so its number of
entries equals the number of distinct `targetFolder/outputFile` paths;
with two input files mapped to the same target folder the two pairs
collapse into a single entry, strictly fewer than the number of pairs. -/
theorem generateEnvLinks_collapse (config : Config) :
    (generateEnvLinks config).length =
      ((config.inputFilesToFolders.map (fun p => pathJoin p.2 config.outputFile)).dedup).length ∧
    (generateEnvLinks ⟨"t", [("f1", "wt"), ("f2", "wt")], ".env.local", []⟩).length = 1 ∧
    ([("f1", "wt"), ("f2", "wt")] : List (String × String)).length = 2 := by
  refine ⟨?_, by decide, by decide⟩
  have hnd : ((generateEnvLinks config).map Prod.fst).Nodup := by
    rw [generateEnvLinks_eq_linkFold]
    exact linkFold_nodup_keys config.outputFile _ config.inputFilesToFolders [] (by simp)
  have hmem : ∀ k, k ∈ (generateEnvLinks config).map Prod.fst ↔
      k ∈ config.inputFilesToFolders.map (fun p => pathJoin p.2 config.outputFile) := by
    intro k
    rw [generateEnvLinks_eq_linkFold]
    rw [linkFold_mem_keys config.outputFile _ config.inputFilesToFolders [] k]
    simp
  have hfin : ((generateEnvLinks config).map Prod.fst).toFinset =
      (config.inputFilesToFolders.map (fun p => pathJoin p.2 config.outputFile)).toFinset := by
    ext k
    rw [List.mem_toFinset, List.mem_toFinset]
    exact hmem k
  have h1 : (generateEnvLinks config).length =
      ((generateEnvLinks config).map Prod.fst).length :=
    (List.length_map _ _).symm
  rw [h1, ← List.toFinset_card_of_nodup hnd, hfin, List.card_toFinset]

/-! ### Consistency-validator lemmas -/

lemma strContains_append_left (a j k : String) (h : strContains j k = true) :
    strContains (a ++ j) k = true := by
  simp only [strContains, String.data_append]
  exact hasInfix_append_left a.data h

lemma strContains_append_right (j b k : String) (h : strContains j k = true) :
    strContains (j ++ b) k = true := by
  simp only [strContains, String.data_append]
  exact hasInfix_append_right b.data h

lemma strContains_joinComma {k : String} {ks : List String} (h : k ∈ ks) :
    strContains (joinComma ks) k = true :=
  hasInfix_joinComma h

/-- Two mappings have the same key set. -/
def sameKeySet (v w : EnvMap) : Prop :=
  (∀ k ∈ envKeys v, k ∈ envKeys w) ∧ (∀ k ∈ envKeys w, k ∈ envKeys v)

instance (v w : EnvMap) : Decidable (sameKeySet v w) := by
  unfold sameKeySet
  infer_instance

lemma sameKeySet_iff_cond (v w : EnvMap) :
    (((envKeys v).filter (fun k => !(envKeys w).contains k)).isEmpty &&
      ((envKeys w).filter (fun k => !(envKeys v).contains k)).isEmpty) = true ↔
      sameKeySet v w := by
  rw [Bool.and_eq_true, List.isEmpty_iff, List.isEmpty_iff, List.filter_eq_nil_iff,
    List.filter_eq_nil_iff]
  unfold sameKeySet
  simp

lemma checkConsistencyRest_none_iff (f : String) (v : EnvMap) :
    ∀ rest : List (String × EnvMap),
      (checkConsistencyRest f v rest).2 = none ↔ ∀ p ∈ rest, sameKeySet v p.2 := by
  intro rest
  induction rest with
  | nil => simp [checkConsistencyRest]
  | cons p rest ih =>
    obtain ⟨file, vars⟩ := p
    rw [checkConsistencyRest]
    by_cases hc : (((envKeys v).filter (fun k => !(envKeys vars).contains k)).isEmpty &&
        ((envKeys vars).filter (fun k => !(envKeys v).contains k)).isEmpty) = true
    · rw [if_pos hc, List.forall_mem_cons]
      have hsame := (sameKeySet_iff_cond v vars).mp hc
      rw [ih]
      simp [hsame]
    · rw [if_neg hc]
      have hns : ¬ sameKeySet v vars := fun hs => hc ((sameKeySet_iff_cond v vars).mpr hs)
      simp only [List.forall_mem_cons]
      constructor
      · intro h
        cases h
      · intro h
        exact absurd h.1 hns

lemma checkConsistencyRest_error (f : String) (v : EnvMap) :
    ∀ (rest : List (String × EnvMap)) (logs : List String) (msg : String),
      checkConsistencyRest f v rest = (logs, some msg) →
      strContains msg "inconsistent keys" = true ∧
      ∃ p ∈ rest, ¬ sameKeySet v p.2 ∧
        (∃ l ∈ logs, strContains l p.1 = true) ∧
        (∀ k ∈ envKeys v, k ∉ envKeys p.2 → ∃ l ∈ logs, strContains l k = true) ∧
        (∀ k ∈ envKeys p.2, k ∉ envKeys v → ∃ l ∈ logs, strContains l k = true) := by
  intro rest
  induction rest with
  | nil =>
    intro logs msg h
    rw [checkConsistencyRest] at h
    cases (Prod.mk.injEq _ _ _ _ ▸ h).2
  | cons p rest ih =>
    obtain ⟨file, vars⟩ := p
    intro logs msg h
    rw [checkConsistencyRest] at h
    by_cases hc : (((envKeys v).filter (fun k => !(envKeys vars).contains k)).isEmpty &&
        ((envKeys vars).filter (fun k => !(envKeys v).contains k)).isEmpty) = true
    · rw [if_pos hc] at h
      obtain ⟨hmsg, q, hq, hrest⟩ := ih logs msg h
      exact ⟨hmsg, q, List.mem_cons_of_mem _ hq, hrest⟩
    · rw [if_neg hc] at h
      have hlogs := congrArg Prod.fst h
      have hmsg := congrArg Prod.snd h
      simp only at hlogs hmsg
      injection hmsg with hm
      subst hm
      subst hlogs
      have hns : ¬ sameKeySet v vars := fun hs => hc ((sameKeySet_iff_cond v vars).mpr hs)
      refine ⟨by decide, (file, vars), List.mem_cons_self _ _, hns, ?_, ?_, ?_⟩
      · refine ⟨"  Comparing " ++ file ++ " to " ++ f, by simp, ?_⟩
        rw [String.append_assoc ("  Comparing " ++ file) " to " f]
        exact strContains_surround "  Comparing " file (" to " ++ f)
      · intro k hk hknot
        have hmem : k ∈ (envKeys v).filter (fun k => !(envKeys vars).contains k) :=
          List.mem_filter.mpr ⟨hk, by simpa using hknot⟩
        have hfalse : ((envKeys v).filter (fun k => !(envKeys vars).contains k)).isEmpty
            = false := by
          rw [← Bool.not_eq_true, List.isEmpty_iff]
          exact List.ne_nil_of_mem hmem
        refine ⟨"  Missing keys: " ++
          joinComma ((envKeys v).filter (fun k => !(envKeys vars).contains k)), ?_, ?_⟩
        · apply List.mem_append.mpr
          left
          apply List.mem_append.mpr
          right
          rw [if_neg (show ¬(((envKeys v).filter
            (fun k => !(envKeys vars).contains k)).isEmpty = true) by rw [hfalse]; simp)]
          exact List.mem_singleton.mpr rfl
        · exact strContains_append_left _ _ _ (strContains_joinComma hmem)
      · intro k hk hknot
        have hmem : k ∈ (envKeys vars).filter (fun k => !(envKeys v).contains k) :=
          List.mem_filter.mpr ⟨hk, by simpa using hknot⟩
        have hfalse : ((envKeys vars).filter (fun k => !(envKeys v).contains k)).isEmpty
            = false := by
          rw [← Bool.not_eq_true, List.isEmpty_iff]
          exact List.ne_nil_of_mem hmem
        refine ⟨"  Extra keys: " ++
          joinComma ((envKeys vars).filter (fun k => !(envKeys v).contains k)), ?_, ?_⟩
        · apply List.mem_append.mpr
          right
          rw [if_neg (show ¬(((envKeys vars).filter
            (fun k => !(envKeys v).contains k)).isEmpty = true) by rw [hfalse]; simp)]
          exact List.mem_singleton.mpr rfl
        · exact strContains_append_left _ _ _ (strContains_joinComma hmem)

/-- C5: the strict key-set consistency check raises its fatal error,
whose message contains "inconsistent keys", exactly when some input file
other than the first has a key set different from the first file's; the
logged details identify the offending file, the keys missing relative to
the first file and the extra keys; with fewer than two input files
nothing is logged and no error is raised. -/
theorem validateInputFilesConsistency_spec :
    (∀ fs : List (String × EnvMap), fs.length < 2 →
      validateInputFilesConsistency fs = ([], none)) ∧
    (∀ (first : String × EnvMap) (rest : List (String × EnvMap)),
      (((validateInputFilesConsistency (first :: rest)).2 ≠ none) ↔
        ∃ p ∈ rest, ¬ sameKeySet first.2 p.2) ∧
      (∀ logs msg, validateInputFilesConsistency (first :: rest) = (logs, some msg) →
        strContains msg "inconsistent keys" = true ∧
        ∃ p ∈ rest, ¬ sameKeySet first.2 p.2 ∧
          (∃ l ∈ logs, strContains l p.1 = true) ∧
          (∀ k ∈ envKeys first.2, k ∉ envKeys p.2 → ∃ l ∈ logs, strContains l k = true) ∧
          (∀ k ∈ envKeys p.2, k ∉ envKeys first.2 → ∃ l ∈ logs, strContains l k = true))) := by
  constructor
  · intro fs h
    match fs with
    | [] => rfl
    | [x] => rfl
    | a :: b :: t => simp at h; omega
  · intro first rest
    obtain ⟨f, v⟩ := first
    cases rest with
    | nil =>
      constructor
      · simp [validateInputFilesConsistency]
      · intro logs msg h
        rw [show validateInputFilesConsistency [(f, v)] = ([], none) from rfl] at h
        cases (Prod.mk.injEq _ _ _ _ ▸ h).2
    | cons r rs =>
      have hval : validateInputFilesConsistency ((f, v) :: r :: rs) =
          checkConsistencyRest f v (r :: rs) := rfl
      constructor
      · have hiff := checkConsistencyRest_none_iff f v (r :: rs)
        rw [hval]
        constructor
        · intro h
          have hnot : ¬ ∀ p ∈ r :: rs, sameKeySet v p.2 := fun hall => h (hiff.mpr hall)
          push_neg at hnot
          exact hnot
        · rintro ⟨p, hp, hnp⟩ hnone
          exact hnp ((hiff.mp hnone) p hp)
      · intro logs msg h
        rw [hval] at h
        exact checkConsistencyRest_error f v (r :: rs) logs msg h

/-- C5 witness: the seeding case of the spec — inputs `{FOO, BAR}` and
`{FOO}` — trips the error, and a single input file never does. -/
theorem validateInputFilesConsistency_witness :
    (validateInputFilesConsistency
      [("a.env", [("FOO", "1"), ("BAR", "2")]), ("b.env", [("FOO", "1")])]).2 ≠ none ∧
    validateInputFilesConsistency [("a.env", [("FOO", "1")])] = ([], none) :=
  ⟨((validateInputFilesConsistency_spec.2 ("a.env", [("FOO", "1"), ("BAR", "2")])
      [("b.env", [("FOO", "1")])]).1).mpr
      ⟨("b.env", [("FOO", "1")]), by decide, by decide⟩,
    validateInputFilesConsistency_spec.1 [("a.env", [("FOO", "1")])] (by decide)⟩

/-! ### Conflict-validator lemmas -/

lemma lookupEnv_isSome_iff (m : EnvMap) (k : String) :
    (lookupEnv m k).isSome = true ↔ k ∈ envKeys m := by
  induction m with
  | nil => simp [lookupEnv, envKeys]
  | cons p rest ih =>
    by_cases h : p.1 = k
    · simp [lookupEnv, h, envKeys]
    · simp [lookupEnv, h, envKeys, Ne.symm h]
      simpa [envKeys] using ih

lemma validateNoConflicts_ok_iff (tv iv : EnvMap) (f tc : String) :
    validateNoConflicts tv iv f tc = Except.ok () ↔
      ∀ k ∈ envKeys iv, k ∈ envKeys tv → strContains tc (tokenStr k) = true := by
  unfold validateNoConflicts
  cases hfil : (envKeys iv).filter (fun k =>
      (lookupEnv tv k).isSome && !(strContains tc (tokenStr k))) with
  | nil =>
    simp only [List.filter_eq_nil_iff] at hfil
    constructor
    · intro _ k hk hktv
      cases hb : strContains tc (tokenStr k) with
      | true => rfl
      | false =>
        exfalso
        refine hfil k hk ?_
        rw [Bool.and_eq_true]
        exact ⟨(lookupEnv_isSome_iff tv k).mpr hktv, by rw [hb]; rfl⟩
    · intro _
      rfl
  | cons c cs =>
    constructor
    · intro h
      cases h
    · intro hall
      exfalso
      have hc : c ∈ (envKeys iv).filter (fun k =>
          (lookupEnv tv k).isSome && !(strContains tc (tokenStr k))) := by
        rw [hfil]
        exact List.mem_cons_self c cs
      obtain ⟨hmem, hpred⟩ := List.mem_filter.mp hc
      rw [Bool.and_eq_true] at hpred
      have := hall c hmem ((lookupEnv_isSome_iff tv c).mp hpred.1)
      simp [this] at hpred

lemma validateNoConflicts_error (tv iv : EnvMap) (f tc e : String)
    (h : validateNoConflicts tv iv f tc = Except.error e) :
    (∃ k ∈ envKeys iv, k ∈ envKeys tv ∧ strContains tc (tokenStr k) = false) ∧
    strContains e f = true ∧
    (∀ k ∈ envKeys iv, k ∈ envKeys tv → strContains tc (tokenStr k) = false →
      strContains e k = true) := by
  unfold validateNoConflicts at h
  cases hfil : (envKeys iv).filter (fun k =>
      (lookupEnv tv k).isSome && !(strContains tc (tokenStr k))) with
  | nil =>
    rw [hfil] at h
    cases h
  | cons c cs =>
    rw [hfil] at h
    injection h with he
    subst he
    have hmempred : ∀ k, k ∈ c :: cs →
        k ∈ envKeys iv ∧ k ∈ envKeys tv ∧ strContains tc (tokenStr k) = false := by
      intro k hk
      have : k ∈ (envKeys iv).filter (fun k =>
          (lookupEnv tv k).isSome && !(strContains tc (tokenStr k))) := by
        rw [hfil]; exact hk
      obtain ⟨hmem, hpred⟩ := List.mem_filter.mp this
      rw [Bool.and_eq_true] at hpred
      refine ⟨hmem, (lookupEnv_isSome_iff tv k).mp hpred.1, ?_⟩
      cases hb : strContains tc (tokenStr k) with
      | false => rfl
      | true =>
        exfalso
        rw [hb] at hpred
        simp at hpred
    refine ⟨⟨c, (hmempred c (List.mem_cons_self c cs)).1,
      (hmempred c (List.mem_cons_self c cs)).2⟩, ?_, ?_⟩
    · rw [show ("Template has literal values for keys also in input file \"" ++
        f ++ "\": " ++ joinComma (c :: cs) ++ ". Use $\x7b" ++ c ++
        "\x7d to reference the input value.") =
        "Template has literal values for keys also in input file \"" ++ f ++
        ("\": " ++ joinComma (c :: cs) ++ ". Use $\x7b" ++ c ++
          "\x7d to reference the input value.") from by
        simp [String.append_assoc]]
      exact strContains_surround _ f _
    · intro k hk hktv hktok
      have hkfil : k ∈ (envKeys iv).filter (fun k =>
          (lookupEnv tv k).isSome && !(strContains tc (tokenStr k))) :=
        List.mem_filter.mpr ⟨hk, by
          rw [Bool.and_eq_true]
          exact ⟨(lookupEnv_isSome_iff tv k).mpr hktv, by simp [hktok]⟩⟩
      rw [hfil] at hkfil
      have hjoin := strContains_joinComma hkfil
      have h1 : strContains (joinComma (c :: cs) ++ (". Use $\x7b" ++ c ++
          "\x7d to reference the input value.")) k = true :=
        strContains_append_right _ _ _ hjoin
      have h2 : strContains (("Template has literal values for keys also in input file \"" ++
          f ++ "\": ") ++ (joinComma (c :: cs) ++ (". Use $\x7b" ++ c ++
          "\x7d to reference the input value."))) k = true :=
        strContains_append_left _ _ _ h1
      rw [show ("Template has literal values for keys also in input file \"" ++
        f ++ "\": " ++ joinComma (c :: cs) ++ ". Use $\x7b" ++ c ++
        "\x7d to reference the input value.") =
        (("Template has literal values for keys also in input file \"" ++ f ++ "\": ") ++
          (joinComma (c :: cs) ++ (". Use $\x7b" ++ c ++
            "\x7d to reference the input value."))) from by
        simp [String.append_assoc]]
      exact h2

lemma validateEnvInputs_ok_iff (tv : EnvMap) (tc : String) :
    ∀ fs : List (String × EnvMap), validateEnvInputs tv fs tc = Except.ok () ↔
      ∀ p ∈ fs, validateNoConflicts tv p.2 p.1 tc = Except.ok () := by
  intro fs
  induction fs with
  | nil => simp [validateEnvInputs]
  | cons p rest ih =>
    obtain ⟨f, v⟩ := p
    rw [validateEnvInputs]
    cases hv : validateNoConflicts tv v f tc with
    | error e =>
      simp only [List.forall_mem_cons]
      constructor
      · intro h
        cases h
      · intro h
        rw [hv] at h
        cases h.1
    | ok u =>
      cases u
      simp only [List.forall_mem_cons]
      rw [ih]
      simp [hv]

lemma validateEnvInputs_error (tv : EnvMap) (tc : String) :
    ∀ (fs : List (String × EnvMap)) (e : String),
      validateEnvInputs tv fs tc = Except.error e →
      ∃ p ∈ fs, validateNoConflicts tv p.2 p.1 tc = Except.error e := by
  intro fs
  induction fs with
  | nil =>
    intro e h
    cases h
  | cons p rest ih =>
    obtain ⟨f, v⟩ := p
    intro e h
    rw [validateEnvInputs] at h
    cases hv : validateNoConflicts tv v f tc with
    | error e₁ =>
      rw [hv] at h
      injection h with he
      subst he
      exact ⟨(f, v), List.mem_cons_self _ _, hv⟩
    | ok u =>
      cases u
      rw [hv] at h
      obtain ⟨q, hq, hqe⟩ := ih e h
      exact ⟨q, List.mem_cons_of_mem _ hq, hqe⟩

/-- C3 counterexample: template text `B=lit` then `A=${B}`, template
mapping with literal value `lit` for `B`, input file whose mapping
contains `B`.  The template's value for `B` is not a `$\x7bB\x7d`
reference to itself, so the claim demands a fatal conflict, but the
validator accepts because `$\x7bB\x7d` occurs elsewhere (in `A`'s value)
in the raw template text. -/
theorem validateEnvInputs_valueRef_cex :
    validateEnvInputs [("B", "lit"), ("A", "lit")] [("input.env", [("B", "x")])]
      "B=lit\nA=${B}" = Except.ok () ∧
    lookupEnv [("B", "lit"), ("A", "lit")] "B" = some "lit" ∧
    ("lit" : String) ≠ "${B}" ∧
    ("B" : String) ∈ envKeys [("B", "x")] ∧
    ("B" : String) ∈ envKeys [("B", "lit"), ("A", "lit")] :=
  ⟨rfl, rfl, by decide, by decide, by decide⟩

/-- C3 (amended): the template/input conflict check fails fatally exactly
when some key exists both in the template's own assignments and in an
input file's mapping and the raw template text nowhere contains a
`$\x7bKEY\x7d` reference to that key (the exception is an occurrence of
the reference anywhere in the template text, not only as the template's
value for that key); the error message names the offending input file and
every conflicting key of that file. -/
theorem validateEnvInputs_spec (tv : EnvMap) (fs : List (String × EnvMap)) (tc : String) :
    (validateEnvInputs tv fs tc = Except.ok () ↔
      ∀ p ∈ fs, ∀ k ∈ envKeys p.2, k ∈ envKeys tv →
        strContains tc (tokenStr k) = true) ∧
    (∀ e, validateEnvInputs tv fs tc = Except.error e →
      ∃ p ∈ fs, (∃ k ∈ envKeys p.2, k ∈ envKeys tv ∧
          strContains tc (tokenStr k) = false) ∧
        strContains e p.1 = true ∧
        ∀ k ∈ envKeys p.2, k ∈ envKeys tv → strContains tc (tokenStr k) = false →
          strContains e k = true) := by
  constructor
  · rw [validateEnvInputs_ok_iff]
    constructor
    · intro h p hp
      exact (validateNoConflicts_ok_iff tv p.2 p.1 tc).mp (h p hp)
    · intro h p hp
      exact (validateNoConflicts_ok_iff tv p.2 p.1 tc).mpr (h p hp)
  · intro e h
    obtain ⟨p, hp, hpe⟩ := validateEnvInputs_error tv tc fs e h
    obtain ⟨hex, hfile, hkeys⟩ := validateNoConflicts_error tv p.2 p.1 tc e hpe
    exact ⟨p, hp, hex, hfile, hkeys⟩

/-- C3 witness: a key shared by template and input with no reference
anywhere in the template is rejected with an error naming the file and
the key; delegating via a reference is accepted. -/
theorem validateEnvInputs_spec_witness :
    (∀ e, validateEnvInputs [("B", "lit")] [("input.env", [("B", "x")])] "B=lit"
        = Except.error e → strContains e "input.env" = true ∧ strContains e "B" = true) ∧
    validateEnvInputs [("B", "${B}")] [("input.env", [("B", "x")])] "B=${B}"
      = Except.ok () := by
  constructor
  · intro e h
    obtain ⟨p, hp, -, hfile, hkeys⟩ :=
      (validateEnvInputs_spec [("B", "lit")] [("input.env", [("B", "x")])] "B=lit").2 e h
    have hpval : p = ("input.env", [("B", "x")]) := by
      rcases List.mem_cons.mp hp with h' | h'
      · exact h'
      · cases h'
    subst hpval
    exact ⟨hfile, hkeys "B" (by decide) (by decide) (by decide)⟩
  · exact (validateEnvInputs_spec [("B", "${B}")] [("input.env", [("B", "x")])]
      "B=${B}").1.mpr (by decide)

/-! ### Host-environment independence -/

lemma dotenvxParse_some (h : EnvMap) (c : String) (e : EnvMap) :
    dotenvxParse h c (some e) = parseEnv (interpolate c e) := rfl

lemma processTemplate_hostEnv (h₁ h₂ : EnvMap) (tc : String) (iv : EnvMap) :
    processTemplate h₁ tc iv = processTemplate h₂ tc iv := rfl

lemma parseInputFiles_hostEnv (h₁ h₂ : EnvMap) :
    ∀ (fm : List (String × String)) (entries : List (String × String)),
      parseInputFiles h₁ fm entries = parseInputFiles h₂ fm entries := by
  intro fm entries
  induction entries with
  | nil => rfl
  | cons e rest ih =>
    obtain ⟨sf, tf⟩ := e
    rw [parseInputFiles, parseInputFiles, ih]
    rfl

lemma generateLoop_hostEnv (h₁ h₂ : EnvMap) :
    ∀ (tc : String) (inF : List (String × EnvMap)) (out : String)
      (entries : List (String × String)),
      generateLoop h₁ tc inF out entries = generateLoop h₂ tc inF out entries := by
  intro tc inF out entries
  induction entries with
  | nil => rfl
  | cons e rest ih =>
    obtain ⟨sf, tf⟩ := e
    rw [generateLoop, generateLoop, ih]
    rfl

/-- C7: the generator never consults the live environment of the host
process — every interpolation is scoped to the supplied input mapping —
so two runs with identical Config and FileContents but arbitrarily
different host environments produce identical results (byte-identical
generated files, or the identical error). -/
theorem generateEnvFiles_no_host_leakage (h₁ h₂ : EnvMap) (config : Config)
    (fm : List (String × String)) :
    generateEnvFiles h₁ config fm = generateEnvFiles h₂ config fm := by
  unfold generateEnvFiles
  simp only [parseInputFiles_hostEnv h₁ h₂, generateLoop_hostEnv h₁ h₂]
  rfl

/-! ### Missing-variable lemmas -/

lemma missingVar_msg_contains (n : String) :
    strContains ("Template references missing variable: " ++ n) "missing variable" = true := by
  have h0 : ("Template references missing variable: " : String) =
      ("Template references " ++ "missing variable") ++ ": " := rfl
  rw [h0, String.append_assoc]
  exact strContains_surround "Template references " "missing variable" (": " ++ n)

lemma processTemplate_error_shape (h : EnvMap) (tc : String) (iv : EnvMap) (e : String)
    (he : processTemplate h tc iv = Except.error e) :
    ∃ n, e = "Template references missing variable: " ++ n := by
  unfold processTemplate at he
  cases hfind : (tokensOf tc).find? (fun n => (lookupEnv iv n).isNone) with
  | none =>
    rw [hfind] at he
    cases he
  | some n =>
    rw [hfind] at he
    injection he with h'
    exact ⟨n, h'.symm⟩

lemma processTemplate_missing_error (h : EnvMap) (tc : String) (iv : EnvMap)
    (hex : ∃ n ∈ tokensOf tc, lookupEnv iv n = none) :
    ∃ e, processTemplate h tc iv = Except.error e ∧
      strContains e "missing variable" = true := by
  obtain ⟨n, hn, hnone⟩ := hex
  have hsome : ((tokensOf tc).find? (fun n => (lookupEnv iv n).isNone)).isSome = true :=
    List.find?_isSome.mpr ⟨n, hn, by simp [hnone]⟩
  obtain ⟨n', hfind⟩ := Option.isSome_iff_exists.mp hsome
  refine ⟨"Template references missing variable: " ++ n', ?_, missingVar_msg_contains n'⟩
  unfold processTemplate
  rw [hfind]

/-- C9: the missing-variable check of `processTemplate` scans the raw
template text, including lines the env-line parser ignores: when every
occurrence of `$\x7bNAME\x7d` lies inside comment lines (lines whose
trimmed form starts with `#`), a mapping lacking `NAME` still makes
`processTemplate` fail with the "missing variable" error, and conversely
such an occurrence counts as a use of `NAME`, so `NAME` is not reported
in the unused-input-variable warning list. -/
theorem processTemplate_comment_scan (hostEnv : EnvMap) (t NAME : String) (m : EnvMap)
    (htok : NAME ∈ tokensOf t)
    (hcomment : ∀ l ∈ splitLines t.data,
      hasInfix l (tokenStr NAME).data = true → (trimChars l).head? = some '#') :
    ((lookupEnv m NAME = none) →
      ∃ e, processTemplate hostEnv t m = Except.error e ∧
        strContains e "missing variable" = true) ∧
    (NAME ∈ envKeys m →
      ∀ w env', processTemplate hostEnv t m = Except.ok (w, env') → NAME ∉ w) := by
  constructor
  · intro hnone
    exact processTemplate_missing_error hostEnv t m ⟨NAME, htok, hnone⟩
  · intro _ w env' hok hmemw
    unfold processTemplate at hok
    cases hfind : (tokensOf t).find? (fun n => (lookupEnv m n).isNone) with
    | some n =>
      rw [hfind] at hok
      cases hok
    | none =>
      rw [hfind] at hok
      injection hok with hpair
      have hw : w = (envKeys m).filter (fun k => !(tokensOf t).contains k) :=
        (congrArg Prod.fst hpair).symm
      rw [hw] at hmemw
      obtain ⟨-, hpred⟩ := List.mem_filter.mp hmemw
      simp only [Bool.not_eq_true'] at hpred
      rw [← Bool.not_eq_true] at hpred
      exact hpred (by simpa using htok)

/-- C9 witness: template `# $\x7bFOO\x7d` newline `APP=1`, whose only
token occurrence is in a comment line: the empty mapping fails with
"missing variable", and with `FOO` supplied the warning list omits
`FOO`. -/
theorem processTemplate_comment_scan_witness :
    (∃ e, processTemplate [] "# ${FOO}\nAPP=1" [] = Except.error e ∧
      strContains e "missing variable" = true) ∧
    (∀ w env', processTemplate [] "# ${FOO}\nAPP=1" [("FOO", "x")] = Except.ok (w, env') →
      "FOO" ∉ w) :=
  ⟨(processTemplate_comment_scan [] "# ${FOO}\nAPP=1" "FOO" [] (by decide) (by decide)).1 rfl,
    (processTemplate_comment_scan [] "# ${FOO}\nAPP=1" "FOO" [("FOO", "x")]
      (by decide) (by decide)).2 (by decide)⟩

/-- Parsed input mappings of a configuration, in record order. -/
def parsedInputsOf (h : EnvMap) (fm : List (String × String))
    (entries : List (String × String)) : List (String × EnvMap) :=
  entries.map fun p => (p.1, dotenvxParse h ((lookupKey fm p.1).getD "") (some []))

lemma parseInputFiles_ok (h : EnvMap) (fm : List (String × String)) :
    ∀ entries, (∀ p ∈ entries, (lookupKey fm p.1).getD "" ≠ "") →
      parseInputFiles h fm entries = Except.ok (parsedInputsOf h fm entries) := by
  intro entries
  induction entries with
  | nil => intro _; rfl
  | cons e rest ih =>
    intro hne
    obtain ⟨sf, tf⟩ := e
    rw [parseInputFiles, if_neg (hne (sf, tf) (List.mem_cons_self _ _)),
      ih (fun p hp => hne p (List.mem_cons_of_mem _ hp))]
    rfl

lemma lookupKey_parsedInputsOf (h : EnvMap) (fm : List (String × String)) :
    ∀ (entries : List (String × String)) (src : String),
      src ∈ entries.map Prod.fst →
      lookupKey (parsedInputsOf h fm entries) src =
        some (dotenvxParse h ((lookupKey fm src).getD "") (some [])) := by
  intro entries
  induction entries with
  | nil => intro src h'; cases h'
  | cons e rest ih =>
    intro src hsrc
    obtain ⟨sf, tf⟩ := e
    by_cases he : sf = src
    · subst he
      simp [parsedInputsOf, lookupKey]
    · rw [List.map_cons] at hsrc
      rcases List.mem_cons.mp hsrc with h' | h'
      · exact absurd h'.symm he
      · show lookupKey ((sf, _) :: parsedInputsOf h fm rest) src = _
        rw [lookupKey, if_neg he]
        exact ih src h'

lemma generateLoop_error (h : EnvMap) (tc : String) (inF : List (String × EnvMap))
    (out : String) :
    ∀ entries, (∃ p ∈ entries, ∃ n ∈ tokensOf tc,
        lookupEnv ((lookupKey inF p.1).getD []) n = none) →
      ∃ e, generateLoop h tc inF out entries = Except.error e ∧
        strContains e "missing variable" = true := by
  intro entries
  induction entries with
  | nil =>
    rintro ⟨p, hp, -⟩
    cases hp
  | cons q rest ih =>
    rintro ⟨p, hp, n, hn, hnone⟩
    obtain ⟨sf, tf⟩ := q
    rw [generateLoop]
    cases hpt : processTemplate h tc ((lookupKey inF sf).getD []) with
    | error e =>
      obtain ⟨n', hshape⟩ := processTemplate_error_shape h tc _ e hpt
      exact ⟨e, rfl, hshape ▸ missingVar_msg_contains n'⟩
    | ok pr =>
      rcases List.mem_cons.mp hp with rfl | hrest
      · exfalso
        obtain ⟨e, he, -⟩ := processTemplate_missing_error h tc
          ((lookupKey inF sf).getD []) ⟨n, hn, hnone⟩
        rw [hpt] at he
        cases he
      · obtain ⟨e, he, hc⟩ := ih ⟨p, hrest, n, hn, hnone⟩
        refine ⟨e, ?_, hc⟩
        rw [he]

/-- C1 counterexample: template `A=1` newline `B=$\x7bMISSING\x7d` and
input `A=x`.  The template references the missing variable `MISSING`,
but the template/input conflict check fires first (key `A`), so the
generator fails with a conflict error that does not contain
"missing variable", contradicting the claim as universally stated. -/
theorem generateEnvFiles_missingVariable_cex :
    generateEnvFiles [] ⟨".env.template", [(".env.w1", "wt1")], ".env.local", []⟩
        [(".env.template", "A=1\nB=${MISSING}"), (".env.w1", "A=x")] =
      Except.error ("Template has literal values for keys also in input file \".env.w1\": A. Use ${A} to reference the input value.") ∧
    strContains ("Template has literal values for keys also in input file \".env.w1\": A. Use ${A} to reference the input value.") "missing variable" = false ∧
    ("MISSING" : String) ∈ tokensOf "A=1\nB=${MISSING}" ∧
    lookupEnv (dotenvxParse [] "A=x" (some [])) "MISSING" = none :=
  ⟨rfl, by decide, by decide, rfl⟩

/-- C1 (amended): when the template and all input files are present (and
non-empty, which the source's falsy check requires) and the
template/input conflict validation passes, a `$\x7bNAME\x7d` token of the
template whose `NAME` is absent from the input mapping chosen for some
target folder makes `generateEnvFiles` fail with an error containing
"missing variable", returning no generated files at all. -/
theorem generateEnvFiles_missingVariable (hostEnv : EnvMap) (config : Config)
    (fm : List (String × String)) (NAME src tf : String)
    (htempl : (lookupKey fm config.template).getD "" ≠ "")
    (hinputs : ∀ p ∈ config.inputFilesToFolders, (lookupKey fm p.1).getD "" ≠ "")
    (hvalid : validateEnvInputs
      (dotenvxParse hostEnv ((lookupKey fm config.template).getD "") (some []))
      (parsedInputsOf hostEnv fm config.inputFilesToFolders)
      ((lookupKey fm config.template).getD "") = Except.ok ())
    (hmem : (src, tf) ∈ config.inputFilesToFolders)
    (htok : NAME ∈ tokensOf ((lookupKey fm config.template).getD ""))
    (hmiss : lookupEnv (dotenvxParse hostEnv ((lookupKey fm src).getD "") (some []))
      NAME = none) :
    ∃ e, generateEnvFiles hostEnv config fm = Except.error e ∧
      strContains e "missing variable" = true := by
  unfold generateEnvFiles
  rw [if_neg htempl, parseInputFiles_ok hostEnv fm config.inputFilesToFolders hinputs]
  show ∃ e,
    (match validateEnvInputs
        (dotenvxParse hostEnv ((lookupKey fm config.template).getD "") (some []))
        (parsedInputsOf hostEnv fm config.inputFilesToFolders)
        ((lookupKey fm config.template).getD "") with
      | Except.error e => Except.error e
      | Except.ok _ =>
        generateLoop hostEnv ((lookupKey fm config.template).getD "")
          (parsedInputsOf hostEnv fm config.inputFilesToFolders) config.outputFile
          config.inputFilesToFolders) = Except.error e ∧
      strContains e "missing variable" = true
  rw [hvalid]
  exact generateLoop_error hostEnv ((lookupKey fm config.template).getD "")
    (parsedInputsOf hostEnv fm config.inputFilesToFolders) config.outputFile
    config.inputFilesToFolders ⟨(src, tf), hmem, NAME, htok, by
      rw [lookupKey_parsedInputsOf hostEnv fm config.inputFilesToFolders src
        (List.mem_map_of_mem Prod.fst hmem)]
      exact hmiss⟩

/-- C1 witness: template `B=$\x7bMISSING\x7d` with input `A=x` (no
conflict) fails with a "missing variable" error. -/
theorem generateEnvFiles_missingVariable_witness :
    ∃ e, generateEnvFiles [] ⟨".env.template", [(".env.w1", "wt1")], ".env.local", []⟩
        [(".env.template", "B=${MISSING}"), (".env.w1", "A=x")] = Except.error e ∧
      strContains e "missing variable" = true :=
  generateEnvFiles_missingVariable [] ⟨".env.template", [(".env.w1", "wt1")], ".env.local", []⟩
    [(".env.template", "B=${MISSING}"), (".env.w1", "A=x")] "MISSING" ".env.w1" "wt1"
    (by decide) (by decide) rfl (by decide) (by decide) rfl

/-! ### Round-trip lemmas -/

/-- Character-level version of `joinLines`. -/
def joinLinesChars : List (List Char) → List Char
  | [] => []
  | [l] => l
  | l :: ls => l ++ '\n' :: joinLinesChars ls

/-- Text a scanner state still owes to the output when interpolation ends
or the candidate fails. -/
def pendingChars : ScanState → List Char
  | ScanState.normal => []
  | ScanState.dollar => ['$']
  | ScanState.brace w => '$' :: '{' :: w.reverse

lemma joinLines_data : ∀ ls : List String,
    (joinLines ls).data = joinLinesChars (ls.map String.data) := by
  intro ls
  induction ls with
  | nil => rfl
  | cons l ls ih =>
    cases ls with
    | nil => rfl
    | cons l₂ ls₂ =>
      show (l ++ "\n" ++ joinLines (l₂ :: ls₂)).data = _
      rw [String.data_append, String.data_append, ih]
      simp [joinLinesChars]

lemma splitLines_append_newline (t : List Char) :
    ∀ l : List Char, (∀ c ∈ l, c ≠ '\n') →
      splitLines (l ++ '\n' :: t) = l :: splitLines t := by
  intro l
  induction l with
  | nil =>
    intro _
    simp [splitLines]
  | cons c l ih =>
    intro h
    have hc : c ≠ '\n' := h c (List.mem_cons_self c l)
    rw [List.cons_append, splitLines, if_neg hc,
      ih (fun x hx => h x (List.mem_cons_of_mem c hx))]

lemma splitLines_no_newline : ∀ l : List Char, (∀ c ∈ l, c ≠ '\n') →
    splitLines l = [l] := by
  intro l
  induction l with
  | nil => intro _; rfl
  | cons c l ih =>
    intro h
    have hc : c ≠ '\n' := h c (List.mem_cons_self c l)
    rw [splitLines, if_neg hc, ih (fun x hx => h x (List.mem_cons_of_mem c hx))]

lemma splitLines_joinLinesChars : ∀ ls : List (List Char), ls ≠ [] →
    (∀ l ∈ ls, ∀ c ∈ l, c ≠ '\n') → splitLines (joinLinesChars ls) = ls := by
  intro ls
  induction ls with
  | nil => intro h _; exact absurd rfl h
  | cons l ls ih =>
    intro _ h
    cases ls with
    | nil => exact splitLines_no_newline l (h l (List.mem_cons_self l []))
    | cons l₂ ls₂ =>
      show splitLines (l ++ '\n' :: joinLinesChars (l₂ :: ls₂)) = _
      rw [splitLines_append_newline _ l (h l (List.mem_cons_self l _)),
        ih (by simp) (fun x hx => h x (List.mem_cons_of_mem l hx))]

lemma scanAux_nil_interpAux (env : EnvMap) :
    ∀ (l : List Char) (st : ScanState), scanAux st l = [] →
      interpAux env st l = pendingChars st ++ l := by
  intro l
  induction l with
  | nil =>
    intro st _
    cases st with
    | normal => rfl
    | dollar => rfl
    | brace w => simp [interpAux, pendingChars]
  | cons c rest ih =>
    intro st h
    cases st with
    | normal =>
      rw [scanAux] at h
      rw [interpAux]
      split_ifs at h ⊢ with hc
      · rw [ih ScanState.dollar h]
        simp [pendingChars, hc]
      · rw [ih ScanState.normal h]
        simp [pendingChars]
    | dollar =>
      rw [scanAux] at h
      rw [interpAux]
      split_ifs at h ⊢ with hc1 hc2
      · rw [ih (ScanState.brace []) h]
        simp [pendingChars, hc1]
      · rw [ih ScanState.dollar h]
        simp [pendingChars, hc2]
      · rw [ih ScanState.normal h]
        simp [pendingChars]
    | brace w =>
      rw [scanAux] at h
      rw [interpAux]
      by_cases hc1 : isWordChar c = true
      · rw [if_pos hc1] at h
        rw [if_pos hc1, ih (ScanState.brace (c :: w)) h]
        simp [pendingChars]
      · rw [if_neg hc1] at h
        rw [if_neg hc1]
        by_cases hc2 : (c = '}' && !w.isEmpty) = true
        · rw [if_pos hc2] at h
          simp at h
        · rw [if_neg hc2] at h
          rw [if_neg hc2]
          by_cases hc3 : c = '$'
          · rw [if_pos hc3] at h
            rw [if_pos hc3, ih ScanState.dollar h]
            simp [pendingChars, hc3]
          · rw [if_neg hc3] at h
            rw [if_neg hc3, ih ScanState.normal h]
            simp [pendingChars]

lemma interpolate_no_tokens (s : String) (env : EnvMap) (h : tokensOf s = []) :
    interpolate s env = s := by
  unfold interpolate
  rw [scanAux_nil_interpAux env s.data ScanState.normal h]
  rfl

lemma replaceCharL_of_not_mem {c : Char} (r : List Char) :
    ∀ l : List Char, c ∉ l → replaceCharL c r l = l := by
  intro l
  induction l with
  | nil => intro _; rfl
  | cons x xs ih =>
    intro h
    have hxc : ¬(x = c) := fun hx => h (by rw [← hx]; exact List.mem_cons_self x xs)
    rw [replaceCharL_cons, if_neg hxc, ih (fun hx => h (List.mem_cons_of_mem x hx))]

lemma escapeEnvValue_eq_self {v : String} (h₁ : '\\' ∉ v.data) (h₂ : '"' ∉ v.data) :
    escapeEnvValue v = v := by
  unfold escapeEnvValue
  rw [replaceCharL_of_not_mem _ v.data h₁, replaceCharL_of_not_mem _ v.data h₂]

lemma trimChars_eq_self_of_ends {l : List Char}
    (hhead : ∀ c, l.head? = some c → ¬ c.isWhitespace)
    (hlast : ∀ c, l.getLast? = some c → ¬ c.isWhitespace) : trimChars l = l := by
  unfold trimChars
  have h1 : l.dropWhile Char.isWhitespace = l := by
    cases l with
    | nil => rfl
    | cons c t =>
      have := hhead c rfl
      simp [List.dropWhile_cons, this]
  rw [h1]
  have h2 : l.reverse.dropWhile Char.isWhitespace = l.reverse := by
    cases hr : l.reverse with
    | nil => rfl
    | cons c t =>
      have hcl : l.getLast? = some c := by
        rw [← List.head?_reverse, hr]
        rfl
      have := hlast c hcl
      simp [List.dropWhile_cons, this]
  rw [h2, List.reverse_reverse]

lemma splitFirstEq_append : ∀ (k : List Char), '=' ∉ k → ∀ rest : List Char,
    splitFirstEq (k ++ '=' :: rest) = some (k, rest) := by
  intro k
  induction k with
  | nil =>
    intro _ rest
    simp [splitFirstEq]
  | cons c t ih =>
    intro h rest
    have hc : ¬ c = '=' := fun hx => h (by rw [← hx]; exact List.mem_cons_self c t)
    rw [List.cons_append, splitFirstEq, if_neg hc,
      ih (fun hx => h (List.mem_cons_of_mem c hx)) rest]

/-- Value wrapped in the double quotes the serializer emits around it. -/
def quoteVal (v : String) : String :=
  "\"" ++ v ++ "\""

lemma quoteVal_data (v : String) : (quoteVal v).data = '"' :: (v.data ++ ['"']) := by
  simp [quoteVal, String.data_append]

lemma renderEntry_data (k v : String) :
    (renderEntry (k, v)).data = k.data ++ '=' :: '"' :: ((escapeEnvValue v).data ++ ['"']) := by
  simp [renderEntry, String.data_append]

lemma trimChars_eq_self_of_all {l : List Char} (h : ∀ c ∈ l, ¬ c.isWhitespace) :
    trimChars l = l := by
  refine trimChars_eq_self_of_ends (fun c hc => h c (List.mem_of_mem_head? (by
    rw [hc]; exact rfl))) (fun c hc => h c (List.mem_of_getLast?_eq_some hc))

lemma parseLine_render (k v : String)
    (hk_ne : k.data ≠ [])
    (hk_hash : k.data.head? ≠ some '#')
    (hk_chars : ∀ c ∈ k.data, ¬ c.isWhitespace ∧ c ≠ '=')
    (hv_bs : '\\' ∉ v.data) (hv_q : '"' ∉ v.data) :
    parseLine ((renderEntry (k, v)).data) = some (k, quoteVal v) := by
  have hesc : escapeEnvValue v = v := escapeEnvValue_eq_self hv_bs hv_q
  rw [renderEntry_data, hesc]
  obtain ⟨c₀, ks, hk⟩ : ∃ c₀ ks, k.data = c₀ :: ks := by
    cases hk : k.data with
    | nil => exact absurd hk hk_ne
    | cons a l => exact ⟨a, l, rfl⟩
  have hline : k.data ++ '=' :: '"' :: (v.data ++ ['"']) =
      c₀ :: (ks ++ '=' :: '"' :: (v.data ++ ['"'])) := by
    rw [hk]
    rfl
  have htrim : trimChars (k.data ++ '=' :: '"' :: (v.data ++ ['"'])) =
      k.data ++ '=' :: '"' :: (v.data ++ ['"']) := by
    apply trimChars_eq_self_of_ends
    · intro c hc
      rw [hline] at hc
      have : c = c₀ := by
        have := hc
        simp at this
        exact this.symm
      subst this
      exact (hk_chars c (by rw [hk]; exact List.mem_cons_self _ _)).1
    · intro c hc
      have hshape : k.data ++ '=' :: '"' :: (v.data ++ ['"']) =
          (k.data ++ '=' :: '"' :: v.data) ++ ['"'] := by
        simp
      rw [hshape, List.getLast?_concat] at hc
      have : c = '"' := by
        have := hc
        simp at this
        exact this.symm
      subst this
      decide
  have hsplit : splitFirstEq (k.data ++ '=' :: '"' :: (v.data ++ ['"'])) =
      some (k.data, '"' :: (v.data ++ ['"'])) :=
    splitFirstEq_append k.data (fun hmem => (hk_chars '=' hmem).2 rfl) _
  have hkeytrim : trimChars k.data = k.data :=
    trimChars_eq_self_of_all (fun c hc => (hk_chars c hc).1)
  have hne : c₀ ≠ '#' := by
    rw [hk] at hk_hash
    simpa using hk_hash
  show (if (trimChars (k.data ++ '=' :: '"' :: (v.data ++ ['"']))).isEmpty = true then none
      else if (trimChars (k.data ++ '=' :: '"' :: (v.data ++ ['"']))).head? = some '#' then
        none
      else
        match splitFirstEq (k.data ++ '=' :: '"' :: (v.data ++ ['"'])) with
        | none => none
        | some (before, after) =>
          if (trimChars before).isEmpty = true then none
          else some (String.mk (trimChars before), String.mk after)) = some (k, quoteVal v)
  rw [htrim, hsplit, hline]
  simp only [List.isEmpty_cons, List.head?_cons]
  rw [if_neg (by simp), if_neg (by simp [hne])]
  show (if (trimChars k.data).isEmpty = true then none
      else some (String.mk (trimChars k.data), String.mk ('"' :: (v.data ++ ['"'])))) =
    some (k, quoteVal v)
  rw [hkeytrim, if_neg (show ¬(k.data.isEmpty = true) by rw [hk]; simp)]
  have hq : String.mk ('"' :: (v.data ++ ['"'])) = quoteVal v :=
    String.ext (by rw [quoteVal_data])
  rw [hq]

lemma filterMap_eq_map_of_some {α β : Type} (f : α → Option β) (g : α → β) :
    ∀ l : List α, (∀ x ∈ l, f x = some (g x)) → l.filterMap f = l.map g := by
  intro l
  induction l with
  | nil => intro _; rfl
  | cons x xs ih =>
    intro h
    rw [List.filterMap_cons, h x (List.mem_cons_self x xs),
      ih (fun y hy => h y (List.mem_cons_of_mem x hy)), List.map_cons]

lemma setEntry_of_not_mem {α : Type} (v : α) :
    ∀ (m : List (String × α)) (k : String), k ∉ m.map Prod.fst →
      setEntry m k v = m ++ [(k, v)] := by
  intro m
  induction m with
  | nil => intro k _; rfl
  | cons p rest ih =>
    intro k hk
    obtain ⟨p₁, p₂⟩ := p
    rw [List.map_cons] at hk
    have hne : ¬(p₁ = k) := fun h => hk (List.mem_cons.mpr (Or.inl h.symm))
    rw [setEntry, if_neg hne, ih k (fun hmem => hk (List.mem_cons_of_mem _ hmem))]
    rfl

lemma foldl_setEntry_of_nodup :
    ∀ (l acc : EnvMap), (((acc ++ l).map Prod.fst)).Nodup →
      l.foldl (fun m kv => setEntry m kv.1 kv.2) acc = acc ++ l := by
  intro l
  induction l with
  | nil =>
    intro acc _
    simp
  | cons kv rest ih =>
    intro acc hnd
    obtain ⟨k₁, v₁⟩ := kv
    have hknotin : k₁ ∉ acc.map Prod.fst := by
      intro hmem
      rw [List.map_append, List.nodup_append] at hnd
      refine hnd.2.2 hmem ?_
      rw [List.map_cons]
      exact List.mem_cons_self _ _
    have heq : acc ++ [(k₁, v₁)] ++ rest = acc ++ (k₁, v₁) :: rest := by simp
    rw [List.foldl_cons]
    show rest.foldl (fun m kv => setEntry m kv.1 kv.2) (setEntry acc k₁ v₁) = _
    rw [setEntry_of_not_mem v₁ acc k₁ hknotin,
      ih (acc ++ [(k₁, v₁)]) (by rw [heq]; exact hnd), heq]

lemma filterMap_parseLine_render :
    ∀ L : EnvMap,
      (∀ p ∈ L, p.1.data ≠ [] ∧ p.1.data.head? ≠ some '#' ∧
        ∀ c ∈ p.1.data, ¬ c.isWhitespace ∧ c ≠ '=') →
      (∀ p ∈ L, '\\' ∉ p.2.data ∧ '"' ∉ p.2.data) →
      List.filterMap parseLine ((L.map renderEntry).map String.data) =
        L.map (fun p => (p.1, quoteVal p.2)) := by
  intro L
  induction L with
  | nil => intro _ _; rfl
  | cons p rest ih =>
    intro hkeys hvals
    obtain ⟨k, v⟩ := p
    obtain ⟨hk1, hk2, hk3⟩ := hkeys (k, v) (List.mem_cons_self _ _)
    obtain ⟨hv1, hv2⟩ := hvals (k, v) (List.mem_cons_self _ _)
    rw [List.map_cons, List.map_cons, List.filterMap_cons,
      parseLine_render k v hk1 hk2 hk3 hv1 hv2,
      ih (fun q hq => hkeys q (List.mem_cons_of_mem _ hq))
        (fun q hq => hvals q (List.mem_cons_of_mem _ hq)), List.map_cons]

/-- C6 counterexample: the mapping `{FOO ↦ bar}` serializes to
`FOO="bar"`, and the env-line parser (which applies no quote-stripping)
parses this back to `{FOO ↦ "bar"}` — the value keeps its surrounding
quotes, so the original key/value pairs are not reconstructed. -/
theorem parse_serializeEnv_cex :
    serializeEnv [("FOO", "bar")] = "FOO=\"bar\"" ∧
    dotenvxParse [] (serializeEnv [("FOO", "bar")]) (some []) = [("FOO", "\"bar\"")] ∧
    dotenvxParse [] (serializeEnv [("FOO", "bar")]) (some []) ≠ [("FOO", "bar")] ∧
    ¬ (dotenvxParse [] (serializeEnv [("FOO", "bar")]) (some [])).Perm [("FOO", "bar")] :=
  ⟨rfl, rfl, by decide, by decide⟩

/-- C6 (amended): for a mapping with unique well-formed keys (non-empty,
no whitespace, `=` or leading `#`) and values free of backslash, double
quote, newline and `$\x7bNAME\x7d` tokens, parsing the string produced by
`serializeEnv` with the env-line parser reconstructs the same key/value
pairs up to order, except that every value is wrapped in the double
quotes the serializer emitted (no quote-stripping is applied when
parsing); stripping those quotes recovers the original mapping. -/
theorem parse_serializeEnv_quoted (hostEnv : EnvMap) (env : EnvMap)
    (hnd : (env.map Prod.fst).Nodup)
    (hkeys : ∀ p ∈ env, p.1.data ≠ [] ∧ p.1.data.head? ≠ some '#' ∧
      ∀ c ∈ p.1.data, ¬ c.isWhitespace ∧ c ≠ '=')
    (hvals : ∀ p ∈ env, '\\' ∉ p.2.data ∧ '"' ∉ p.2.data ∧ '\n' ∉ p.2.data)
    (hnotok : tokensOf (serializeEnv env) = []) :
    (dotenvxParse hostEnv (serializeEnv env) (some [])).Perm
      (env.map fun p => (p.1, quoteVal p.2)) := by
  rw [dotenvxParse_some, interpolate_no_tokens _ _ hnotok]
  by_cases hnil : env = []
  · subst hnil
    exact List.Perm.refl []
  have hSperm : (List.insertionSort entryLe env).Perm env :=
    List.perm_insertionSort entryLe env
  have hSmem : ∀ p ∈ List.insertionSort entryLe env, p ∈ env :=
    fun p hp => (hSperm.mem_iff).mp hp
  have hSne : (List.insertionSort entryLe env) ≠ [] := by
    intro h0
    rw [h0] at hSperm
    exact hnil hSperm.symm.eq_nil
  have hlinechars : ∀ l ∈ ((List.insertionSort entryLe env).map renderEntry).map String.data,
      ∀ c ∈ l, c ≠ '\n' := by
    intro l hl c hc
    rw [List.map_map] at hl
    obtain ⟨p, hp, rfl⟩ := List.mem_map.mp hl
    have hpenv := hSmem p hp
    obtain ⟨hk1, hk2, hk3⟩ := hkeys p hpenv
    obtain ⟨hv1, hv2, hv3⟩ := hvals p hpenv
    have hesc : escapeEnvValue p.2 = p.2 := escapeEnvValue_eq_self hv1 hv2
    have hdata : (String.data ∘ renderEntry) p =
        p.1.data ++ '=' :: '"' :: (p.2.data ++ ['"']) := by
      show (renderEntry (p.1, p.2)).data = _
      rw [renderEntry_data, hesc]
    rw [hdata] at hc
    intro hcnl
    subst hcnl
    rcases List.mem_append.mp hc with hck | hcr
    · exact (hk3 '\n' hck).1 (by decide)
    · rcases List.mem_cons.mp hcr with h1 | hcr2
      · exact absurd h1 (by decide)
      · rcases List.mem_cons.mp hcr2 with h2 | hcr3
        · exact absurd h2 (by decide)
        · rcases List.mem_append.mp hcr3 with hcv | hcq
          · exact hv3 hcv
          · exact absurd (List.mem_singleton.mp hcq) (by decide)
  have hdata : (serializeEnv env).data =
      joinLinesChars (((List.insertionSort entryLe env).map renderEntry).map String.data) :=
    joinLines_data _
  have hsplit : splitLines (serializeEnv env).data =
      ((List.insertionSort entryLe env).map renderEntry).map String.data := by
    rw [hdata]
    exact splitLines_joinLinesChars _ (by simp [hSne]) hlinechars
  have hfm : List.filterMap parseLine
      (((List.insertionSort entryLe env).map renderEntry).map String.data) =
      (List.insertionSort entryLe env).map (fun p => (p.1, quoteVal p.2)) :=
    filterMap_parseLine_render _ (fun p hp => hkeys p (hSmem p hp))
      (fun p hp => ⟨(hvals p (hSmem p hp)).1, (hvals p (hSmem p hp)).2.1⟩)
  have hkeysq : (((List.insertionSort entryLe env).map
      (fun p => (p.1, quoteVal p.2))).map Prod.fst) =
      (List.insertionSort entryLe env).map Prod.fst := by
    rw [List.map_map]
    rfl
  have hnodupq : ((([] : EnvMap) ++ (List.insertionSort entryLe env).map
      (fun p => (p.1, quoteVal p.2))).map Prod.fst).Nodup := by
    rw [List.nil_append, hkeysq]
    exact ((hSperm.map Prod.fst).nodup_iff).mpr hnd
  show (((splitLines (serializeEnv env).data).filterMap parseLine).foldl
      (fun m kv => setEntry m kv.1 kv.2) []).Perm _
  rw [hsplit, hfm, foldl_setEntry_of_nodup _ [] hnodupq, List.nil_append]
  exact hSperm.map _

/-- C6 witness: the round trip on `{FOO ↦ bar}` recovers `FOO` with the
quoted value `"bar"`. -/
theorem parse_serializeEnv_quoted_witness :
    (dotenvxParse [] (serializeEnv [("FOO", "bar")]) (some [])).Perm
      ([("FOO", "bar")].map fun p => (p.1, quoteVal p.2)) :=
  parse_serializeEnv_quoted [] [("FOO", "bar")] (by decide) (by decide) (by decide)
    (by decide)

end EnvSync
